import Mathlib

/-!
Verification development for the gridsome content-graph store
(`lib/app/ContentTypeCollection.js`) and its type-inference engine
(`infer-types`, `src/unnamed/part_001`).

JavaScript values are modelled by the inductive `JValue` (numbers are
restricted to integers; floating point is out of scope).  Stateful code is
modelled by explicit state passing over a `Store` value; fallible code
returns `Except`.  External npm collaborators (`camelcase`,
`@sindresorhus/slugify`) are implemented as executable models; collaborators
the spec leaves abstract (`isResolvablePath`, `resolveFilePath`, `moment`
formatting, `crypto` md5, `JSON.stringify`, transformer plugins) are
parameters of the evaluation context `Ctx`.
-/

/-- A JavaScript value, as it flows through the node store.  Object
property lists are kept in property-enumeration order. -/
inductive JValue where
  | undefined : JValue
  | null : JValue
  | bool (b : Bool) : JValue
  | num (n : Int) : JValue
  | str (s : String) : JValue
  | arr (elems : List JValue) : JValue
  | obj (props : List (String × JValue)) : JValue
deriving Repr

namespace JValue

/-- JavaScript truthiness (`!!v`).  `0`, `''`, `false`, `null` and
`undefined` are falsy; arrays and objects are always truthy. -/
def truthy : JValue → Bool
  | .undefined => false
  | .null => false
  | .bool b => b
  | .num n => n != 0
  | .str s => s != ""
  | .arr _ => true
  | .obj _ => true

/-- `a || b` on JavaScript values (`b` already evaluated). -/
def jsOr (a b : JValue) : JValue := if a.truthy then a else b

/-- `typeof v === 'string'`. -/
def isStr : JValue → Bool
  | .str _ => true
  | _ => false

/-- lodash `isObject`: objects and arrays are objects, primitives and
`null` are not. -/
def isObjectLike : JValue → Bool
  | .obj _ => true
  | .arr _ => true
  | _ => false

end JValue

mutual
/-- Strict equality test on modelled JavaScript values. -/
def beqJ : JValue → JValue → Bool
  | .undefined, .undefined => true
  | .null, .null => true
  | .bool a, .bool b => a == b
  | .num a, .num b => a == b
  | .str a, .str b => a == b
  | .arr xs, .arr ys => beqJList xs ys
  | .obj ps, .obj qs => beqJProps ps qs
  | _, _ => false

/-- Element-wise equality of value lists. -/
def beqJList : List JValue → List JValue → Bool
  | [], [] => true
  | x :: xs, y :: ys => beqJ x y && beqJList xs ys
  | _, _ => false

/-- Element-wise equality of property lists. -/
def beqJProps : List (String × JValue) → List (String × JValue) → Bool
  | [], [] => true
  | (k, v) :: ps, (k', v') :: qs => k == k' && beqJ v v' && beqJProps ps qs
  | _, _ => false
end

mutual
/-- JavaScript string coercion `String(v)` (also used when a value is used
as a property key).  Plain objects coerce to `[object Object]`. -/
def jsToString : JValue → String
  | .undefined => "undefined"
  | .null => "null"
  | .bool b => if b then "true" else "false"
  | .num n => toString n
  | .str s => s
  | .obj _ => "[object Object]"
  | .arr xs => jsArrJoin xs

/-- Array-to-string coercion: `Array.prototype.join(',')`, where `null`
and `undefined` elements contribute the empty string. -/
def jsArrJoin : List JValue → String
  | [] => ""
  | x :: rest =>
      let head := match x with
        | .undefined => ""
        | .null => ""
        | _ => jsToString x
      match rest with
      | [] => head
      | _ => head ++ "," ++ jsArrJoin rest
end

/-- Property lookup `o[k]` on an object's property list. -/
def jsGet (props : List (String × JValue)) (k : String) : JValue :=
  match props.lookup k with
  | some v => v
  | none => .undefined

/-- The keys of an object's property list. -/
def jsKeys (props : List (String × JValue)) : List String :=
  props.map Prod.fst

/-- `res[k] = v` on a property list: overwrite in place if the key exists
(keeping its original position, as JavaScript objects do), else append. -/
def jsUpsert (props : List (String × JValue)) (k : String) (v : JValue) :
    List (String × JValue) :=
  match props with
  | [] => [(k, v)]
  | (k', v') :: rest =>
      if k' = k then (k', v) :: rest else (k', v') :: jsUpsert rest k v

/-- `Object.assign(target, source)` where both are modelled property
lists: each source property is upserted into the target in order. -/
def jsAssign (target source : List (String × JValue)) :
    List (String × JValue) :=
  source.foldl (fun acc (kv : String × JValue) => jsUpsert acc kv.1 kv.2) target

/-! ### ASCII character helpers (model of JavaScript string methods) -/

/-- `'A'..'Z'`. -/
def isAsciiUpper (c : Char) : Bool := 65 ≤ c.toNat && c.toNat ≤ 90

/-- `'a'..'z'`. -/
def isAsciiLower (c : Char) : Bool := 97 ≤ c.toNat && c.toNat ≤ 122

/-- `'0'..'9'`. -/
def isAsciiDigit (c : Char) : Bool := 48 ≤ c.toNat && c.toNat ≤ 57

/-- `[a-zA-Z]`. -/
def isAsciiAlpha (c : Char) : Bool := isAsciiUpper c || isAsciiLower c

/-- `[a-zA-Z0-9]`. -/
def isAsciiAlnum (c : Char) : Bool := isAsciiAlpha c || isAsciiDigit c

/-- `String.prototype.toLowerCase`, ASCII fragment (all keys reaching
`camelcase` in `createKey` are ASCII because illegal characters were
already replaced by `_`). -/
def asciiToLower (c : Char) : Char :=
  if isAsciiUpper c then Char.ofNat (c.toNat + 32) else c

/-- `String.prototype.toUpperCase`, ASCII fragment. -/
def asciiToUpper (c : Char) : Char :=
  if isAsciiLower c then Char.ofNat (c.toNat - 32) else c

/-- `c.toLowerCase() === c && c.toUpperCase() !== c`: a cased character
currently in lower case. -/
def isLowerStrict (c : Char) : Bool := asciiToLower c == c && asciiToUpper c != c

/-- `c.toUpperCase() === c && c.toLowerCase() !== c`: a cased character
currently in upper case. -/
def isUpperStrict (c : Char) : Bool := asciiToUpper c == c && asciiToLower c != c

/-- JavaScript whitespace for `String.prototype.trim` (ASCII fragment). -/
def isJsSpace (c : Char) : Bool := c == ' ' || c == '\t' || c == '\n' || c == '\r'

/-- `String.prototype.trim` on a character list. -/
def jsTrim (l : List Char) : List Char :=
  ((l.dropWhile isJsSpace).reverse.dropWhile isJsSpace).reverse

/-- The word-character class `\w` = `[A-Za-z0-9_]` of the sanitation
regexes. -/
def jsIsWordChar (c : Char) : Bool := isAsciiAlnum c || c == '_'

/-! ### Model of the npm `camelcase` module (v5, as used by the source) -/

/-- The separator class `[_.\- ]` of `camelcase`'s internal regexes. -/
def isSepChar (c : Char) : Bool := c == '_' || c == '.' || c == '-' || c == ' '

/-- `camelcase`'s `preserveCamelCase` walk: inserts `-` at a
lower-to-upper case boundary, and before the last upper of an
upper-run followed by a lower.  State is (isLastCharLower,
isLastCharUpper, isLastLastCharUpper); `acc` holds the output reversed. -/
def pccGo (lastLower lastUpper lastLast : Bool) (acc : List Char) :
    List Char → List Char
  | [] => acc.reverse
  | c :: rest =>
    if lastLower && isAsciiAlpha c && asciiToUpper c == c then
      pccGo false true false (c :: '-' :: acc) rest
    else if lastUpper && lastLast && isAsciiAlpha c && asciiToLower c == c then
      -- the `-` goes in front of the previous character; the current
      -- character is then re-examined, which lands in the default branch
      match acc with
      | p :: acctail => pccGo true false false (c :: p :: '-' :: acctail) rest
      | [] => pccGo true false false (c :: acc) rest
    else
      pccGo (isLowerStrict c) (isUpperStrict c) lastUpper (c :: acc) rest

/-- `preserveCamelCase` entry point. -/
def preserveCamel (l : List Char) : List Char := pccGo false false false [] l

/-- `replace(/^[_.\- ]+/, '')`: strip a leading separator run. -/
def skipSeps : List Char → List Char
  | [] => []
  | c :: rest => if isSepChar c then skipSeps rest else c :: rest

/-- All characters lower-cased. -/
def lowerAll (l : List Char) : List Char := l.map asciiToLower

/-- `replace(/[_.\- ]+(\w|$)/g, (_, p1) => p1.toUpperCase())`: a
separator run is removed and the following character upper-cased
(dropped entirely before the end of the string).  Exact for inputs made
of word and separator characters, which is all `createKey` ever feeds
it. -/
def uas (pendingSep : Bool) : List Char → List Char
  | [] => []
  | c :: rest =>
    if isSepChar c then uas true rest
    else if pendingSep then asciiToUpper c :: uas false rest
    else c :: uas false rest

/-- The npm `camelcase` module (v5): trim, single-character shortcut,
`preserveCamelCase` when the input has upper-case letters, strip leading
separators, lower-case, upper-case after separator runs, and optionally
pascal-case the first character. -/
def camelCaseL (pascal : Bool) (s : List Char) : List Char :=
  let input := jsTrim s
  match input with
  | [] => []
  | [c] => if pascal then [asciiToUpper c] else [asciiToLower c]
  | _ :: _ :: _ =>
      let pres := if input = lowerAll input then input else preserveCamel input
      let core := uas false (lowerAll (skipSeps pres))
      if pascal then
        match core with
        | [] => []
        | c :: r => asciiToUpper c :: r
      else core

/-- `camelCase(s)` on strings. -/
def camelCaseStr (s : String) : String := String.mk (camelCaseL false s.data)

/-- `camelCase(s, { pascalCase: true })` on strings. -/
def pascalCaseStr (s : String) : String := String.mk (camelCaseL true s.data)

/-! ### Model of `@sindresorhus/slugify` (per the spec's description) -/

/-- Collapse runs of `-` to a single `-` placed before the next kept
character (so trailing runs disappear). -/
def collapseSep (pending : Bool) : List Char → List Char
  | [] => []
  | c :: rest =>
    if c == '-' then collapseSep true rest
    else if pending then '-' :: c :: collapseSep false rest
    else c :: collapseSep false rest

/-- Modelled from the spec: the external slugifier collaborator
(`@sindresorhus/slugify` with separator `-`): lower-cased, characters
outside `[a-z0-9]` collapsed to single `-` separators, no leading or
trailing separator.  Deterministic and pure. -/
def slugifyStr (s : String) : String :=
  let mapped := s.data.map fun c =>
    if isAsciiAlnum (asciiToLower c) then asciiToLower c else '-'
  String.mk (collapseSep false (mapped.dropWhile (· == '-')))

/-! ### Key sanitation and reference bookkeeping
    (`ContentTypeCollection.processNodeFields` internals) -/

/-- `createKey`: replace characters outside `[a-zA-Z0-9_]` by `_`
(`nonValidCharsRE`), camel-case, then prefix a leading digit with `_`
(`leadingNumberRE`). -/
def createKey (key : String) : String :=
  let step1 := key.data.map fun c => if jsIsWordChar c then c else '_'
  let step2 := camelCaseL false step1
  String.mk (match step2 with
    | c :: rest => if isAsciiDigit c then '_' :: c :: rest else c :: rest
    | [] => [])

/-- `isRefField`: a non-null object whose own keys are exactly
`typeName` and `id` (arrays never qualify: their own keys are
indices). -/
def isRefField : JValue → Bool
  | .obj props =>
      props.length == 2 && (jsKeys props).contains "typeName" &&
        (jsKeys props).contains "id"
  | _ => false

/-- The belongs-to map accumulated per node: type name to referenced id
set, both in insertion order. -/
abbrev BelongsTo := List (String × List String)

/-- `belongsTo[typeName] = belongsTo[typeName] || {}`. -/
def bEnsure (b : BelongsTo) (tn : String) : BelongsTo :=
  if (b.lookup tn).isSome then b else b ++ [(tn, [])]

/-- `belongsTo[typeName][id] = true` (the type-name entry exists). -/
def bAddId (b : BelongsTo) (tn idv : String) : BelongsTo :=
  b.map fun p =>
    if p.1 = tn then (p.1, if p.2.contains idv then p.2 else p.2 ++ [idv])
    else p

/-- Whether `belongsTo[tn][idv] === true`. -/
def bGet (b : BelongsTo) (tn idv : String) : Bool :=
  match b.lookup tn with
  | some ids => ids.contains idv
  | none => false

/-- `processRefField({ typeName, id })`: ensure the type-name entry, then
record the id (each element when the id is a list); values used as
property keys are string-coerced. -/
def processRefField (b : BelongsTo) (tn idv : JValue) : BelongsTo :=
  let key := jsToString tn
  let b := bEnsure b key
  match idv with
  | .arr ids => ids.foldl (fun b i => bAddId b key (jsToString i)) b
  | _ => bAddId b key (jsToString idv)

/-- The reference registration performed when `processField` meets a ref
object: one `processRefField` per type name when `typeName` is a list
(all sharing the same `id`), else a single one. -/
def collectRef (b : BelongsTo) (props : List (String × JValue)) : BelongsTo :=
  let tnv := jsGet props "typeName"
  let idv := jsGet props "id"
  match tnv with
  | .arr tns => tns.foldl (fun b tn => processRefField b tn idv) b
  | _ => processRefField b tnv idv

/-- `key.startsWith('__')`, decided on the first two characters. -/
def startsDunder (k : String) : Bool :=
  match k.data with
  | '_' :: '_' :: _ => true
  | _ => false

/-! ### Recursive field normalization (`processNodeFields` internals).
The belongs-to accumulator is threaded explicitly; `ir` models the
caller-supplied `isResolvablePath` predicate and `res` the bound
`resolveFilePath(origin, ·)` call. -/

mutual
/-- `processField`: `undefined`/`null` pass through; strings are resolved
against `origin` when path-like; objects register a detected reference and
recurse; arrays reached here (i.e. nested inside another value) are
enumerated like objects over their index keys. -/
def processField (ir : String → Bool) (res : String → String)
    (b : BelongsTo) : JValue → BelongsTo × JValue
  | .undefined => (b, .undefined)
  | .null => (b, .null)
  | .str s => (b, .str (if ir s then res s else s))
  | .bool v => (b, .bool v)
  | .num n => (b, .num n)
  | .arr xs =>
      -- typeof is 'object' but an array is never a ref field; `processFields`
      -- iterates its index keys, turning it into a plain object
      let (b', out) := processFieldsArr ir res b 0 [] xs
      (b', .obj out)
  | .obj props =>
      let b1 := if isRefField (.obj props) then collectRef b props else b
      let (b', out) := processFieldsProps ir res b1 [] props
      (b', .obj out)
termination_by v => sizeOf v

/-- `processFields` over an object's property list: keys starting with
`__` keep their key and value untouched; other keys are sanitized with
`createKey`, array values are mapped element-wise through `processField`
and all other values go through `processField` directly. -/
def processFieldsProps (ir : String → Bool) (res : String → String)
    (b : BelongsTo) (acc : List (String × JValue)) :
    List (String × JValue) → BelongsTo × List (String × JValue)
  | [] => (b, acc)
  | (k, .arr xs) :: rest =>
      if startsDunder k then
        processFieldsProps ir res b (jsUpsert acc k (.arr xs)) rest
      else
        let (b', xs') := processFieldList ir res b xs
        processFieldsProps ir res b' (jsUpsert acc (createKey k) (.arr xs')) rest
  | (k, v) :: rest =>
      if startsDunder k then
        processFieldsProps ir res b (jsUpsert acc k v) rest
      else
        let (b', v') := processField ir res b v
        processFieldsProps ir res b' (jsUpsert acc (createKey k) v') rest
termination_by l => sizeOf l

/-- `processFields` over an array (`for..in` yields the index keys, which
never start with `__`): element values are treated exactly like property
values. -/
def processFieldsArr (ir : String → Bool) (res : String → String)
    (b : BelongsTo) (i : Nat) (acc : List (String × JValue)) :
    List JValue → BelongsTo × List (String × JValue)
  | [] => (b, acc)
  | .arr xs :: rest =>
      let (b', xs') := processFieldList ir res b xs
      processFieldsArr ir res b' (i + 1)
        (jsUpsert acc (createKey (toString i)) (.arr xs')) rest
  | x :: rest =>
      let (b', x') := processField ir res b x
      processFieldsArr ir res b' (i + 1)
        (jsUpsert acc (createKey (toString i)) x') rest
termination_by l => sizeOf l

/-- `fields[key].map(value => processField(value))`. -/
def processFieldList (ir : String → Bool) (res : String → String)
    (b : BelongsTo) : List JValue → BelongsTo × List JValue
  | [] => (b, [])
  | x :: rest =>
      let (b', x') := processField ir res b x
      let (b'', rest') := processFieldList ir res b' rest
      (b'', x' :: rest')
termination_by l => sizeOf l
end

/-- `processFields` over a string input (`for..in` yields index keys with
single-character string values; only the top-level input can be a raw
string).  The inlined value processing is `processField`'s string case. -/
def processFieldsStr (ir : String → Bool) (res : String → String)
    (b : BelongsTo) (i : Nat) (acc : List (String × JValue)) :
    List Char → BelongsTo × List (String × JValue)
  | [] => (b, acc)
  | c :: rest =>
      let s := String.mk [c]
      let v' : JValue := .str (if ir s then res s else s)
      processFieldsStr ir res b (i + 1)
        (jsUpsert acc (createKey (toString i)) v') rest

/-- `processFields(input)` dispatching on the shape of the enumerated
value; primitives have no own enumerable keys and produce `{}`. -/
def processFieldsTop (ir : String → Bool) (res : String → String)
    (b : BelongsTo) : JValue → BelongsTo × List (String × JValue)
  | .obj props => processFieldsProps ir res b [] props
  | .arr xs => processFieldsArr ir res b 0 [] xs
  | .str s => processFieldsStr ir res b 0 [] s.data
  | _ => (b, [])

/-! ### Collection configuration and node data model -/

/-- Per-type configuration held by a `ContentTypeCollection` (the parts
`createNode`/`updateNode` read; the runtime adds `refs: {}` and
`fields: {}` defaults).  `makePath` is the route's path-building function
over the resolved parameter map and `refs` is the legacy declared-
reference table (`camelCase(fieldName) ↦ { typeName }`). -/
structure CollCfg where
  typeName : String
  refs : List (String × JValue) := []
  routeKeys : List String := []
  makePath : List (String × String) → String := fun _ => ""
  resolveAbsolutePaths : Bool := false

/-- `options.internal` as supplied by the caller. -/
structure InternalOpts where
  origin : JValue := .undefined
  mimeType : JValue := .undefined
  content : JValue := .undefined
deriving Repr

/-- The `internal` record built by `createInternals`. -/
structure Internals where
  origin : JValue
  mimeType : JValue
  content : JValue
  timestamp : Nat
deriving Repr

/-- The caller-supplied options of `createNode`/`updateNode`. -/
structure NodeOptions where
  id : JValue := .undefined
  _id : JValue := .undefined
  title : JValue := .undefined
  slug : JValue := .undefined
  path : JValue := .undefined
  date : JValue := .undefined
  content : JValue := .undefined
  excerpt : JValue := .undefined
  fields : JValue := .undefined
  internal : InternalOpts := {}
deriving Repr

/-- The shape returned by a content transformer's `parse`. -/
structure TransformResult where
  title : JValue := .undefined
  slug : JValue := .undefined
  path : JValue := .undefined
  date : JValue := .undefined
  content : JValue := .undefined
  excerpt : JValue := .undefined
  fields : JValue := .undefined

/-- A content transformer plugin (external collaborator). -/
structure Transformer where
  parse : JValue → TransformResult

/-- Evaluation context: the impure or external collaborators of
`ContentTypeCollection`, made explicit.  `now`/`nowISO` model
`Date.now()`/`new Date().toISOString()` during one operation, `md5` the
crypto digest, `jsonStringify` the `JSON.stringify` builtin,
`momentFormat` the `moment.utc(date, ISO_8601_FORMAT, true).format(fmt)`
composite, and the rest the plugin-store collaborators. -/
structure Ctx where
  now : Nat := 0
  nowISO : String := ""
  md5 : String → String := id
  jsonStringify : NodeOptions → String := fun _ => ""
  transformers : String → Option Transformer := fun _ => none
  isResolvablePath : String → Bool := fun _ => false
  resolveFilePath : JValue → String → Bool → String := fun _ p _ => p
  momentFormat : JValue → String → String := fun _ _ => ""

/-- Runtime errors surfaced by the modelled operations. -/
inductive JSErr where
  | noTransformer (mimeType : String)
  | typeError
  | uniqueViolation
  | missingCollection (typeName : String)
deriving Repr, DecidableEq

/-- A node of the per-type collection. -/
structure Node where
  id : JValue
  _id : JValue
  typeName : String
  uid : String
  internal : Internals
  title : JValue
  date : JValue
  slug : JValue
  content : JValue
  excerpt : JValue
  withPath : Bool
  fields : List (String × JValue)
  path : String
deriving Repr

/-- `createInternals(options.internal)`. -/
def createInternals (ctx : Ctx) (opts : InternalOpts) : Internals :=
  { origin := opts.origin, mimeType := opts.mimeType,
    content := opts.content, timestamp := ctx.now }

/-- `processNodeFields(input = {}, origin = '')`: normalize the field
data, then run the legacy declared-reference loop (which registers
`fields[fieldName]` — `undefined` when absent — under the configured
type name). -/
def processNodeFields (ctx : Ctx) (cfg : CollCfg) (input origin : JValue) :
    (List (String × JValue)) × BelongsTo :=
  let inputV := match input with
    | .undefined => .obj []
    | v => v
  let originV := match origin with
    | .undefined => .str ""
    | v => v
  let res := fun f => ctx.resolveFilePath originV f cfg.resolveAbsolutePaths
  let bf := processFieldsTop ctx.isResolvablePath res [] inputV
  let b := cfg.refs.foldl
    (fun b p => processRefField b p.2 (jsGet bf.2 p.1)) bf.1
  (bf.2, b)

/-- `transform({ mimeType, content })`: look the transformer up by mime
type; absent transformer throws `No transformer for ... is installed.`. -/
def transform (ctx : Ctx) (internal : Internals) : Except JSErr TransformResult :=
  match ctx.transformers (jsToString internal.mimeType) with
  | none => .error (.noTransformer (jsToString internal.mimeType))
  | some t => .ok (t.parse internal.content)

/-- Own enumerable properties of a value, for `Object.assign`. -/
def jsEnumList (i : Nat) : List JValue → List (String × JValue)
  | [] => []
  | x :: rest => (toString i, x) :: jsEnumList (i + 1) rest

/-- Own enumerable properties of a value (objects: their props; arrays:
index keys; primitives: none — string character keys are irrelevant to
`result.fields`, which transformers return as plain objects). -/
def jsOwnProps : JValue → List (String × JValue)
  | .obj props => props
  | .arr xs => jsEnumList 0 xs
  | _ => []

/-- `transformNodeOptions(options, internal)`: each truthy key of the
parse result is written over the corresponding option, and
`result.fields` is `Object.assign`ed over `options.fields || {}`. -/
def transformNodeOptions (ctx : Ctx) (opts : NodeOptions) (internal : Internals) :
    Except JSErr NodeOptions :=
  match transform ctx internal with
  | .error e => .error e
  | .ok r =>
    let opts := if r.title.truthy then { opts with title := r.title } else opts
    let opts := if r.slug.truthy then { opts with slug := r.slug } else opts
    let opts := if r.path.truthy then { opts with path := r.path } else opts
    let opts := if r.date.truthy then { opts with date := r.date } else opts
    let opts := if r.content.truthy then { opts with content := r.content } else opts
    let opts := if r.excerpt.truthy then { opts with excerpt := r.excerpt } else opts
    let opts := if r.fields.truthy then
        { opts with fields := .obj (jsAssign
            (jsOwnProps (JValue.jsOr opts.fields (.obj []))) (jsOwnProps r.fields)) }
      else opts
    .ok opts

/-- `this.slugify(x)` where the module throws a `TypeError` unless given
a string (the parameter default `''` applies only to `undefined`). -/
def slugifyJS : JValue → Except JSErr JValue
  | .undefined => .ok (.str (slugifyStr ""))
  | .str s => .ok (.str (slugifyStr s))
  | _ => .error .typeError

/-- The lazy chain `options.slug || fields.slug || this.slugify(title)`:
the slugifier is only invoked (and can only throw) when both options are
falsy. -/
def slugChain (o f t : JValue) : Except JSErr JValue :=
  if o.truthy then .ok o else if f.truthy then .ok f else slugifyJS t

/-- `'/' + path.replace(/^\/+/g, '')`: an explicitly supplied path gets
exactly one leading slash. -/
def normalizePath (p : String) : String :=
  "/" ++ String.mk (p.data.dropWhile (· == '/'))

/-! ### Path generation and node creation -/

/-- `Array.isArray`. -/
def isArrJ : JValue → Bool
  | .arr _ => true
  | _ => false

/-- `v.hasOwnProperty(k)`; only ever queried with `typeName`/`id`, which
are never own properties of arrays or primitives. -/
def hasOwnProp : JValue → String → Bool
  | .obj props, k => (jsKeys props).contains k
  | _, _ => false

/-- `v[k]` on a general value (undefined off objects). -/
def jsGetV : JValue → String → JValue
  | .obj props, k => jsGet props k
  | _, _ => .undefined

/-- The `internal` record seen as a JavaScript object. -/
def internalsToJ (i : Internals) : JValue :=
  .obj [("origin", i.origin), ("mimeType", i.mimeType),
        ("content", i.content), ("timestamp", .num i.timestamp)]

/-- Dynamic top-level attribute access `node[keyName]` used by
`makePath`.  During `createNode` the `path` attribute is not yet
assigned; its placeholder `""` is falsy exactly like `undefined` in the
only consuming expression (`node.fields[k] || node[k] || k`). -/
def nodeAttr (n : Node) (k : String) : JValue :=
  if k = "id" then n.id
  else if k = "_id" then n._id
  else if k = "typeName" then .str n.typeName
  else if k = "uid" then .str n.uid
  else if k = "internal" then internalsToJ n.internal
  else if k = "title" then n.title
  else if k = "date" then n.date
  else if k = "slug" then n.slug
  else if k = "content" then n.content
  else if k = "excerpt" then n.excerpt
  else if k = "withPath" then .bool n.withPath
  else if k = "fields" then .obj n.fields
  else if k = "path" then .str n.path
  else .undefined

/-- Route-parameter map assignment (plain object upsert). -/
def paramsSet (ps : List (String × String)) (k v : String) :
    List (String × String) :=
  match ps with
  | [] => [(k, v)]
  | (k', v') :: rest =>
      if k' = k then (k', v) :: rest else (k', v') :: paramsSet rest k v

/-- Truthiness of `params[keyName]` (a string or absent). -/
def paramTruthy (ps : List (String × String)) (k : String) : Bool :=
  match ps.lookup k with
  | some s => s != ""
  | none => false

/-- `makePath(node)`: resolve each route key from the node's fields, its
top-level attributes, or the key literal; `year`/`month`/`day` come from
the moment-formatted `date`; non-list references contribute their
stringified id; other primitive values are slugified with the raw value
kept under `key + '_raw'`; finally the route's `makePath` builds the
string. -/
def makePath (ctx : Ctx) (cfg : CollCfg) (n : Node) : String :=
  let params := cfg.routeKeys.foldl
    (fun params keyName =>
      let fieldValue :=
        (jsGet n.fields keyName).jsOr ((nodeAttr n keyName).jsOr (.str keyName))
      if keyName = "year" then paramsSet params "year" (ctx.momentFormat n.date "YYYY")
      else if keyName = "month" then paramsSet params "month" (ctx.momentFormat n.date "MM")
      else if keyName = "day" then paramsSet params "day" (ctx.momentFormat n.date "DD")
      else if fieldValue.isObjectLike && hasOwnProp fieldValue "typeName" &&
              hasOwnProp fieldValue "id" && !isArrJ (jsGetV fieldValue "id") then
        paramsSet params keyName (jsToString (jsGetV fieldValue "id"))
      else if !fieldValue.isObjectLike && !paramTruthy params keyName then
        paramsSet (paramsSet params keyName (slugifyStr (jsToString fieldValue)))
          (keyName ++ "_raw") (jsToString fieldValue)
      else params)
    []
  cfg.makePath params

/-- What `createNode` returns: the node plus the belongs-to map destined
for the index entry. -/
structure CreateRes where
  node : Node
  belongsTo : BelongsTo

/-- `createNode(options = {})`: build `internal`, compute `id` from
`options.id || options._id || makeUid(JSON.stringify(options))`, run the
transformer when both raw content and mime type are present, normalize
fields, then fill the derived display fields by the
explicit-option / normalized-field / default precedence, and finally the
path (explicit paths normalized to one leading slash, otherwise the
route's `makePath`). -/
def createNode (ctx : Ctx) (cfg : CollCfg) (opts : NodeOptions) :
    Except JSErr CreateRes :=
  let internal := createInternals ctx opts.internal
  let id := opts.id.jsOr (opts._id.jsOr (.str (ctx.md5 (ctx.jsonStringify opts))))
  match (if internal.content.truthy && internal.mimeType.truthy
         then transformNodeOptions ctx opts internal else .ok opts) with
  | .error e => .error e
  | .ok opts' =>
    let fb := processNodeFields ctx cfg opts'.fields internal.origin
    let uid := ctx.md5 (cfg.typeName ++ jsToString id)
    let title := opts'.title.jsOr ((jsGet fb.1 "title").jsOr id)
    let date := opts'.date.jsOr ((jsGet fb.1 "date").jsOr (.str ctx.nowISO))
    match slugChain opts'.slug (jsGet fb.1 "slug") title with
    | .error e => .error e
    | .ok slug =>
      let contentV := opts'.content.jsOr ((jsGet fb.1 "content").jsOr (.str ""))
      let excerptV := opts'.excerpt.jsOr ((jsGet fb.1 "excerpt").jsOr (.str ""))
      let node0 : Node :=
        { id := id, _id := id, typeName := cfg.typeName, uid := uid,
          internal := internal, title := title, date := date, slug := slug,
          content := contentV, excerpt := excerptV,
          withPath := opts'.path.isStr, fields := fb.1, path := "" }
      let path := match opts'.path with
        | .str p => normalizePath p
        | _ => makePath ctx cfg node0
      .ok { node := { node0 with path := path }, belongsTo := fb.2 }

/-! ### The store: per-type collections plus the shared cross-type index -/

/-- Modelled from the spec: the cross-type Index Entry
`{ type: 'node', path, typeName, uid, id, belongsTo, _id }` (the index
collection itself is created outside the ported file). -/
structure IndexEntry where
  tpe : String
  path : String
  typeName : String
  uid : String
  id : JValue
  belongsTo : BelongsTo
  _id : JValue
deriving Repr

/-- One `ContentTypeCollection`: its configuration, the mime types
registered so far (only the keys matter to the model; the stored value is
the transformer looked up in the plugin registry) and the per-type node
collection. -/
structure Coll where
  cfg : CollCfg
  mimeTypes : List String := []
  nodes : List Node := []

/-- The whole store: the shared index, every type's collection, and the
emitted `change` notifications `(newNode?, oldNode?)` in order. -/
structure Store where
  index : List IndexEntry := []
  colls : List Coll := []
  events : List (Option Node × Option Node) := []

/-- Modelled from the spec: `baseStore.index.insert(entry)` — the
cross-type index enforces a unique constraint on `path` and throws on a
duplicate. -/
def indexInsert (idx : List IndexEntry) (e : IndexEntry) :
    Except JSErr (List IndexEntry) :=
  if idx.any (fun e' => e'.path == e.path) then .error .uniqueViolation
  else .ok (idx ++ [e])

/-- `this.collection.insert(node)`: the per-type collection was created
with `unique: ['id', 'path']` and throws on a violation of either. -/
def collInsert (c : Coll) (n : Node) : Except JSErr Coll :=
  if c.nodes.any (fun m => beqJ m.id n.id || m.path == n.path) then
    .error .uniqueViolation
  else .ok { c with nodes := c.nodes ++ [n] }

/-- The mime-type bookkeeping at the top of `addNode`: the first node
observed with a given (truthy) mime type registers it on the content
type. -/
def registerMime (c : Coll) (mimeType : JValue) : Coll :=
  if mimeType.truthy && !c.mimeTypes.contains (jsToString mimeType) then
    { c with mimeTypes := c.mimeTypes ++ [jsToString mimeType] }
  else c

/-- Replace the named collection in the store's collection list. -/
def replaceColl (colls : List Coll) (tn : String) (c' : Coll) : List Coll :=
  colls.map fun c => if c.cfg.typeName == tn then c' else c

/-- `addNode(options)` on the collection named `tn`: create the node,
register its mime type, then try the index insert — a duplicate path is
caught, warned about and turns the call into `null` with the node never
inserted into the type's collection.  A uniqueness violation of the
collection insert itself is NOT caught in the source and propagates (the
model then discards the half-mutated store). -/
def addNode (ctx : Ctx) (s : Store) (tn : String) (opts : NodeOptions) :
    Except JSErr (Store × Option Node) :=
  match s.colls.find? (fun c => c.cfg.typeName == tn) with
  | none => .error (.missingCollection tn)
  | some coll =>
    match createNode ctx coll.cfg opts with
    | .error e => .error e
    | .ok cres =>
      let node := cres.node
      let coll' := registerMime coll node.internal.mimeType
      let entry : IndexEntry :=
        { tpe := "node", path := node.path, typeName := node.typeName,
          uid := node.uid, id := node.id, belongsTo := cres.belongsTo,
          _id := node.id }
      match indexInsert s.index entry with
      | .error _ => .ok ({ s with colls := replaceColl s.colls tn coll' }, none)
      | .ok index' =>
        match collInsert coll' node with
        | .error e => .error e
        | .ok coll'' =>
          .ok ({ s with
                  index := index', colls := replaceColl s.colls tn coll'',
                  events := s.events ++ [(some node, none)] }, some node)

/-- `getNode(id)`: point lookup within the type's collection. -/
def getNode (s : Store) (tn : String) (id : JValue) : Option Node :=
  match s.colls.find? (fun c => c.cfg.typeName == tn) with
  | none => none
  | some coll => coll.nodes.find? (fun n => beqJ n.id id)

/-- Replace the first node matching `id` (the object `findOne` returned
and `updateNode` mutates in place, with `autoupdate` persisting it). -/
def replaceFirstNode (nodes : List Node) (id : JValue) (n' : Node) : List Node :=
  match nodes with
  | [] => []
  | m :: rest =>
      if beqJ m.id id then n' :: rest else m :: replaceFirstNode rest id n'

/-- Replace the first index entry matching `uid` (the entry `findOne`
returned and whose `path`/`belongsTo` are mutated in place). -/
def replaceFirstEntry (idx : List IndexEntry) (uid : String) (e' : IndexEntry) :
    List IndexEntry :=
  match idx with
  | [] => []
  | e :: rest =>
      if e.uid == uid then e' :: rest else e :: replaceFirstEntry rest uid e'

/-- `updateNode(id, options)`: fetch the node and its index entry (a
missing node throws at `node.uid`; a missing entry throws at
`indexEntry.path`, modelled up front), rebuild `internal` (both
`createInternals` calls observe the same clock tick), re-run the
transformer and field normalization, recompute the display fields with
fallback to the previous node values — except `slug`, whose fallback is
the slugified new title — then the path.  `makePath` runs against the
updated display fields but the node's old `fields` and old `path`, which
are assigned afterwards; finally the entry's `path`/`belongsTo` are
updated in place and a change event is emitted with the old node
snapshot. -/
def updateNode (ctx : Ctx) (s : Store) (tn : String) (id : JValue)
    (opts : NodeOptions) : Except JSErr (Store × Node) :=
  match s.colls.find? (fun c => c.cfg.typeName == tn) with
  | none => .error (.missingCollection tn)
  | some coll =>
    match coll.nodes.find? (fun n => beqJ n.id id) with
    | none => .error .typeError
    | some node =>
      match s.index.find? (fun e => e.uid == node.uid) with
      | none => .error .typeError
      | some entry =>
        let internal := createInternals ctx opts.internal
        match (if internal.content.truthy && internal.mimeType.truthy
               then transformNodeOptions ctx opts internal else .ok opts) with
        | .error e => .error e
        | .ok opts' =>
          let fb := processNodeFields ctx coll.cfg opts'.fields internal.origin
          let title := opts'.title.jsOr ((jsGet fb.1 "title").jsOr node.title)
          let date := opts'.date.jsOr ((jsGet fb.1 "date").jsOr node.date)
          match slugChain opts'.slug (jsGet fb.1 "slug") title with
          | .error e => .error e
          | .ok slug =>
            let contentV := opts'.content.jsOr ((jsGet fb.1 "content").jsOr node.content)
            let excerptV := opts'.excerpt.jsOr ((jsGet fb.1 "excerpt").jsOr node.excerpt)
            let node1 := { node with
                             title := title, date := date, slug := slug,
                             content := contentV, excerpt := excerptV,
                             internal := internal }
            let path := match opts'.path with
              | .str p => normalizePath p
              | _ => makePath ctx coll.cfg node1
            let node2 := { node1 with path := path, fields := fb.1 }
            let entry' := { entry with path := node2.path, belongsTo := fb.2 }
            let coll' := { coll with nodes := replaceFirstNode coll.nodes id node2 }
            .ok ({ s with
                    colls := replaceColl s.colls tn coll',
                    index := replaceFirstEntry s.index node.uid entry',
                    events := s.events ++ [(some node2, some node)] }, node2)

/-- `removeNode(id)`: remove the node and its index entry
(`findAndRemove` removes every match), emitting a removal event. -/
def removeNode (s : Store) (tn : String) (id : JValue) : Except JSErr Store :=
  match s.colls.find? (fun c => c.cfg.typeName == tn) with
  | none => .error (.missingCollection tn)
  | some coll =>
    match coll.nodes.find? (fun n => beqJ n.id id) with
    | none => .error .typeError
    | some node =>
      .ok { index := s.index.filter (fun e => !(e.uid == node.uid)),
            colls := replaceColl s.colls tn
              { coll with nodes := coll.nodes.filter (fun n => !(beqJ n.id id)) },
            events := s.events ++ [(none, some node)] }

/-! ### Type inference engine (`infer-types.js`) -/

/-- The structural output types produced by inference.  Resolve closures
(runtime accessors) are not data and are omitted; nested object fields
keep `mapValues`'s `none` entries for values that inferred no type. -/
inductive GType where
  | string : GType
  | boolean : GType
  | int : GType
  | float : GType
  | date : GType
  | list (t : GType) : GType
  | object (name : String) (fields : List (String × Option GType)) : GType
deriving Repr

/-- `(x | 0) === x`: the value fits a 32-bit signed integer. -/
def is32BitInt (n : Int) : Bool := -2147483648 ≤ n && n ≤ 2147483647

/-- `createTypeName(nodeType, key)`. -/
def createTypeName (nodeType key : String) : String :=
  pascalCaseStr (nodeType ++ " " ++ key)

mutual
/-- `inferType(value, key, nodeType)`: falsy values infer no type;
arrays infer a list of the type of their first element (`value[0]` of an
empty array being `undefined`, hence falsy); date-shaped values (per the
caller-supplied predicate `dP`) infer the date type; then dispatch on
the runtime kind, objects becoming named structural types. -/
def inferType (dP : JValue → Bool) (v : JValue) (key nodeType : String) :
    Option GType :=
  if !v.truthy then none
  else match v with
    | .arr xs =>
        match inferType dP (xs.headD .undefined) key nodeType with
        | some t => some (.list t)
        | none => none
    | w =>
        if dP w then some .date
        else match w with
          | .str _ => some .string
          | .bool _ => some .boolean
          | .num n => some (if is32BitInt n then .int else .float)
          | .obj props => some (createObjectType dP props key nodeType)
          | _ => none
termination_by (sizeOf v, 2)
decreasing_by
  all_goals simp_wf
  · cases ids <;> simp [List.headD] <;> omega
  · omega

/-- `createObjectType(obj, key, nodeType)`: a nested structural type
named from the owning type and field key, with each nested key inferred
recursively. -/
def createObjectType (dP : JValue → Bool) (props : List (String × JValue))
    (key nodeType : String) : GType :=
  .object (createTypeName nodeType key) (inferFieldsOf dP (createTypeName nodeType key) props)
termination_by (sizeOf props, 1)

/-- `mapValues(obj, (value, key) => inferType(value, key, name))`. -/
def inferFieldsOf (dP : JValue → Bool) (name : String) :
    List (String × JValue) → List (String × Option GType)
  | [] => []
  | (k, v) :: rest => (k, inferType dP v k name) :: inferFieldsOf dP name rest
termination_by l => (sizeOf l, 0)
end

/-- `fields[key] = type` in `inferTypes`'s accumulation: overwrite in
place, else append. -/
def upsertG (fields : List (String × GType)) (k : String) (t : GType) :
    List (String × GType) :=
  match fields with
  | [] => [(k, t)]
  | (k', t') :: rest =>
      if k' = k then (k', t) :: rest else (k', t') :: upsertG rest k t

/-- `inferTypes(nodes, nodeType)`: sample every node's fields in order;
each key whose value infers a (truthy) type overwrites the key's previous
entry — last write wins. -/
def inferTypes (dP : JValue → Bool) (nodes : List Node) (nodeType : String) :
    List (String × GType) :=
  nodes.foldl
    (fun fields node =>
      node.fields.foldl
        (fun fields kv =>
          match inferType dP kv.2 kv.1 nodeType with
          | some t => upsertG fields kv.1 t
          | none => fields)
        fields)
    []

/-! ### Concrete fixtures used by witnesses and counterexamples -/

/-- A plain evaluation context (no transformers, nothing path-like). -/
def ctxW : Ctx := { nowISO := "2020-01-01T00:00:00.000Z" }

/-- A `Post` content type with a constant route. -/
def cfgPost : CollCfg := { typeName := "Post", makePath := fun _ => "/made" }

/-- A store holding one empty `Post` collection. -/
def s0 : Store := { colls := [{ cfg := cfgPost }] }

/-- Internals of an already-stored fixture node. -/
def internalsW : Internals :=
  { origin := .undefined, mimeType := .undefined, content := .undefined,
    timestamp := 0 }

/-- A stored node whose fields carry a `__`-prefixed key with a
type-inferable value. -/
def nodeDunder : Node :=
  { id := .str "a", _id := .str "a", typeName := "Post", uid := "u",
    internal := internalsW, title := .str "t", date := .str "d",
    slug := .str "s", content := .str "", excerpt := .str "",
    withPath := true, fields := [("__hidden", .num 5)], path := "/p" }

/-! ### C7 — `__`-prefixed keys and the inferred schema -/

/-- C7: the claim says the field-type map produced by type inference
contains no `__`-prefixed key.  `inferTypes` has no such filter: a node
with field `__hidden: 5` yields the map `{ __hidden: Int }`, contradicting
the source's own comment that such keys "will not be part of the schema"
(`ContentTypeCollection.js` line 224).  This theorem evaluates the code at
the failing input. -/
theorem inferTypes_emits_dunder_key :
    inferTypes (fun _ => false) [nodeDunder] "Post" = [("__hidden", GType.int)] ∧
    startsDunder "__hidden" = true := by
  refine ⟨?_, by decide⟩
  simp only [inferTypes, nodeDunder, List.foldl]
  rw [inferType.eq_def]
  simp [JValue.truthy, is32BitInt, upsertG]

/-! ### C8 — falsy values and list inference -/

/-- C8: `inferType` returns no type for every falsy value (`0`, `''`,
`false`, `null`, `undefined`); an empty list infers no type (its first
element is `undefined`); a non-empty list infers exactly a list of the
type inferred from its first element only. -/
theorem inferType_falsy_and_lists (dP : JValue → Bool) (v : JValue)
    (key nodeType : String) :
    (v.truthy = false → inferType dP v key nodeType = none) ∧
    inferType dP (.arr []) key nodeType = none ∧
    (∀ x xs, inferType dP (.arr (x :: xs)) key nodeType
      = (inferType dP x key nodeType).map GType.list) := by
  refine ⟨fun h => ?_, ?_, fun x xs => ?_⟩
  · rw [inferType.eq_def]
    simp only [h, Bool.not_false, if_true]
  · have h0 : inferType dP .undefined key nodeType = none := by
      rw [inferType.eq_def]
      simp [JValue.truthy]
    rw [inferType.eq_def]
    simp [JValue.truthy, List.headD, h0]
  · rw [inferType.eq_def]
    simp only [JValue.truthy, Bool.not_true, List.headD]
    cases h : inferType dP x key nodeType <;> simp [h]


/-! ### Evaluation helpers and inversion scaffolding -/

/-- Base case of the property walk. -/
theorem pfp_nil (ir : String → Bool) (res : String → String) (b : BelongsTo)
    (acc : List (String × JValue)) : processFieldsProps ir res b acc [] = (b, acc) := by
  rw [processFieldsProps]

/-- Absent `options.fields` and no legacy refs normalize to nothing. -/
theorem pnf_trivial (ctx : Ctx) (cfg : CollCfg) (origin : JValue)
    (h : cfg.refs = []) :
    processNodeFields ctx cfg .undefined origin = ([], []) := by
  simp [processNodeFields, processFieldsTop, pfp_nil, h]

/-- The `internal` record `createNode` builds. -/
def cnInternal (ctx : Ctx) (opts : NodeOptions) : Internals :=
  createInternals ctx opts.internal

/-- The node id `options.id || options._id || makeUid(JSON.stringify(options))`. -/
def cnId (ctx : Ctx) (opts : NodeOptions) : JValue :=
  opts.id.jsOr (opts._id.jsOr (.str (ctx.md5 (ctx.jsonStringify opts))))

/-- The effective options after the conditional transformer run. -/
def cnOpts (ctx : Ctx) (opts : NodeOptions) : Except JSErr NodeOptions :=
  if (cnInternal ctx opts).content.truthy && (cnInternal ctx opts).mimeType.truthy
  then transformNodeOptions ctx opts (cnInternal ctx opts)
  else .ok opts

/-- The normalized fields and belongs-to map `createNode` computes. -/
def cnFieldsBT (ctx : Ctx) (cfg : CollCfg) (opts opts' : NodeOptions) :
    (List (String × JValue)) × BelongsTo :=
  processNodeFields ctx cfg opts'.fields (cnInternal ctx opts).origin

/-- The resolved title `options.title || fields.title || node.id`. -/
def cnTitle (ctx : Ctx) (cfg : CollCfg) (opts opts' : NodeOptions) : JValue :=
  opts'.title.jsOr ((jsGet (cnFieldsBT ctx cfg opts opts').1 "title").jsOr (cnId ctx opts))

/-- The (fallible) resolved slug. -/
def cnSlugE (ctx : Ctx) (cfg : CollCfg) (opts opts' : NodeOptions) :
    Except JSErr JValue :=
  slugChain opts'.slug (jsGet (cnFieldsBT ctx cfg opts opts').1 "slug")
    (cnTitle ctx cfg opts opts')

/-- The node `createNode` returns, given the effective options and slug. -/
def cnNode (ctx : Ctx) (cfg : CollCfg) (opts opts' : NodeOptions) (slug : JValue) :
    Node :=
  let node0 : Node :=
    { id := cnId ctx opts, _id := cnId ctx opts, typeName := cfg.typeName,
      uid := ctx.md5 (cfg.typeName ++ jsToString (cnId ctx opts)),
      internal := cnInternal ctx opts,
      title := cnTitle ctx cfg opts opts',
      date := opts'.date.jsOr
        ((jsGet (cnFieldsBT ctx cfg opts opts').1 "date").jsOr (.str ctx.nowISO)),
      slug := slug,
      content := opts'.content.jsOr
        ((jsGet (cnFieldsBT ctx cfg opts opts').1 "content").jsOr (.str "")),
      excerpt := opts'.excerpt.jsOr
        ((jsGet (cnFieldsBT ctx cfg opts opts').1 "excerpt").jsOr (.str "")),
      withPath := opts'.path.isStr, fields := (cnFieldsBT ctx cfg opts opts').1,
      path := "" }
  { node0 with path := match opts'.path with
      | .str p => normalizePath p
      | _ => makePath ctx cfg node0 }

/-- Inversion of a successful `createNode`: there are effective options
and a slug such that the result is exactly the assembled node. -/
theorem createNode_ok_inversion (ctx : Ctx) (cfg : CollCfg) (opts : NodeOptions)
    (c : CreateRes) (h : createNode ctx cfg opts = .ok c) :
    ∃ opts' slug, cnOpts ctx opts = .ok opts' ∧
      cnSlugE ctx cfg opts opts' = .ok slug ∧
      c = { node := cnNode ctx cfg opts opts' slug,
            belongsTo := (cnFieldsBT ctx cfg opts opts').2 } := by
  simp only [createNode] at h
  rcases hO : cnOpts ctx opts with e | opts'
  · have hO2 := hO
    simp only [cnOpts, cnInternal] at hO2
    simp only [hO2] at h
    exact absurd h (by simp)
  · have hO2 := hO
    simp only [cnOpts, cnInternal] at hO2
    simp only [hO2] at h
    rcases hS : cnSlugE ctx cfg opts opts' with e | slug
    · have hS2 := hS
      simp only [cnSlugE, cnTitle, cnFieldsBT, cnId, cnInternal] at hS2
      simp only [hS2] at h
      exact absurd h (by simp)
    · have hS2 := hS
      simp only [cnSlugE, cnTitle, cnFieldsBT, cnId, cnInternal] at hS2
      simp only [hS2, Except.ok.injEq] at h
      subst h
      exact ⟨opts', slug, rfl, hS, rfl⟩

/-! ### C6 — path normalization -/

/-- Whether a character list contains two consecutive slashes. -/
def hasDoubleSlashL : List Char → Bool
  | '/' :: '/' :: _ => true
  | _ :: rest => hasDoubleSlashL rest
  | [] => false

/-- Whether the string contains the substring `//`. -/
def hasDoubleSlash (s : String) : Bool := hasDoubleSlashL s.data

/-- Whether the string starts with exactly one `/`. -/
def oneLeadingSlash (s : String) : Bool :=
  match s.data with
  | '/' :: '/' :: _ => false
  | '/' :: _ => true
  | _ => false

/-- Explicit path options containing an interior double slash. -/
def optsSlashes : NodeOptions := { id := .str "x", path := .str "a//b" }

/-- What `createNode ctxW cfgPost optsSlashes` evaluates to. -/
def crSlashes : CreateRes where
  node :=
    { id := .str "x"
      _id := .str "x"
      typeName := "Post"
      uid := "Postx"
      internal :=
        { origin := .undefined
          mimeType := .undefined
          content := .undefined
          timestamp := 0 }
      title := .str "x"
      date := .str "2020-01-01T00:00:00.000Z"
      slug := .str "x"
      content := .str ""
      excerpt := .str ""
      withPath := true
      fields := []
      path := "/a//b" }
  belongsTo := []

/-- Concrete evaluation of `createNode` on an explicit `a//b` path. -/
theorem createNode_slashes_eval :
    createNode ctxW cfgPost optsSlashes = .ok crSlashes := by
  simp [createNode, createInternals, optsSlashes, ctxW, cfgPost, pnf_trivial,
    JValue.jsOr, JValue.truthy, slugChain, slugifyJS, jsGet, JValue.isStr,
    normalizePath, slugifyStr, collapseSep, asciiToLower, isAsciiAlnum,
    isAsciiAlpha, isAsciiUpper, isAsciiLower, isAsciiDigit, jsToString,
    crSlashes]

/-- C6 counterexample: the claim says every created node's path contains
no `//`; but an explicitly supplied path keeps interior double slashes —
`path: 'a//b'` yields the node path `/a//b`. -/
theorem createNode_double_slash_counterexample :
    (createNode ctxW cfgPost optsSlashes).map (fun c => c.node.path) = .ok "/a//b" ∧
    hasDoubleSlash "/a//b" = true := by
  refine ⟨?_, by decide⟩
  simp [createNode_slashes_eval, crSlashes, Except.map]

/-- The head of `dropWhile p l` never satisfies `p`. -/
theorem dropWhile_head_false {p : Char → Bool} (l : List Char) :
    ∀ c rest, l.dropWhile p = c :: rest → p c = false := by
  induction l with
  | nil => intro c rest h; simp [List.dropWhile] at h
  | cons a t ih =>
    intro c rest h
    rw [List.dropWhile_cons] at h
    by_cases hp : p a = true
    · rw [if_pos hp] at h
      exact ih c rest h
    · rw [if_neg hp] at h
      cases h
      simpa using hp

/-- `'/' + p.replace(/^\/+/g, '')` always starts with exactly one
slash. -/
theorem normalizePath_one_slash (p : String) :
    oneLeadingSlash (normalizePath p) = true := by
  unfold normalizePath oneLeadingSlash
  have hdata : ("/" ++ String.mk (p.data.dropWhile (· == '/'))).data
      = '/' :: p.data.dropWhile (· == '/') := by
    simp
  rw [hdata]
  rcases h : p.data.dropWhile (· == '/') with _ | ⟨c, rest⟩
  · rfl
  · have hc : (c == '/') = false := dropWhile_head_false p.data c rest h
    split <;> simp_all

/-- C6 (amended): when the node's path was explicitly supplied as a
string (recorded by `withPath`), the created node's path starts with
exactly one leading `/`; interior `//` runs are kept, and paths built by
the route's `makePath` are not normalized at all. -/
theorem createNode_explicit_path_one_slash (ctx : Ctx) (cfg : CollCfg)
    (opts : NodeOptions) (c : CreateRes)
    (h : createNode ctx cfg opts = .ok c) (hw : c.node.withPath = true) :
    oneLeadingSlash c.node.path = true := by
  obtain ⟨opts', slug, hO, hS, hc⟩ := createNode_ok_inversion ctx cfg opts c h
  subst hc
  simp only [cnNode] at hw ⊢
  cases hp : opts'.path <;>
    simp [hp, JValue.isStr, normalizePath_one_slash] at hw ⊢

/-- Witness for `createNode_explicit_path_one_slash` at a concrete
input. -/
theorem createNode_explicit_path_one_slash_witness :
    createNode ctxW cfgPost optsSlashes = .ok crSlashes ∧
    crSlashes.node.withPath = true ∧
    oneLeadingSlash crSlashes.node.path = true := by
  refine ⟨createNode_slashes_eval, by decide, ?_⟩
  exact createNode_explicit_path_one_slash ctxW cfgPost optsSlashes crSlashes
    createNode_slashes_eval (by decide)

/-! ### C9 — missing transformer -/

/-- Options declaring a mime type but no raw content. -/
def optsMimeOnly : NodeOptions :=
  { id := .str "x", path := .str "/p",
    internal := { mimeType := .str "text/markdown" } }

/-- What `createNode ctxW cfgPost optsMimeOnly` evaluates to. -/
def crMimeOnly : CreateRes where
  node :=
    { id := .str "x"
      _id := .str "x"
      typeName := "Post"
      uid := "Postx"
      internal :=
        { origin := .undefined
          mimeType := .str "text/markdown"
          content := .undefined
          timestamp := 0 }
      title := .str "x"
      date := .str "2020-01-01T00:00:00.000Z"
      slug := .str "x"
      content := .str ""
      excerpt := .str ""
      withPath := true
      fields := []
      path := "/p" }
  belongsTo := []

/-- C9 counterexample: the claim says a declared mime type without a
registered transformer makes `createNode` fail; but the transformer is
only consulted when `internal.content` is also truthy — with a mime type
alone, `createNode` succeeds although no transformer is registered. -/
theorem createNode_mime_without_content_ok :
    createNode ctxW cfgPost optsMimeOnly = .ok crMimeOnly ∧
    optsMimeOnly.internal.mimeType = .str "text/markdown" ∧
    optsMimeOnly.internal.content = .undefined ∧
    ctxW.transformers "text/markdown" = none := by
  refine ⟨?_, rfl, rfl, rfl⟩
  simp [createNode, createInternals, optsMimeOnly, ctxW, cfgPost, pnf_trivial,
    JValue.jsOr, JValue.truthy, slugChain, slugifyJS, jsGet, JValue.isStr,
    normalizePath, slugifyStr, collapseSep, asciiToLower, isAsciiAlnum,
    isAsciiAlpha, isAsciiUpper, isAsciiLower, isAsciiDigit, jsToString,
    crMimeOnly]

/-- C9 (amended): when `internal.mimeType` and `internal.content` are
both truthy and no transformer is registered for the mime type,
`createNode` signals the missing-transformer error; without raw content
the mime type is ignored and no error is raised. -/
theorem createNode_missing_transformer_error (ctx : Ctx) (cfg : CollCfg)
    (opts : NodeOptions)
    (hc : opts.internal.content.truthy = true)
    (hm : opts.internal.mimeType.truthy = true)
    (ht : ctx.transformers (jsToString opts.internal.mimeType) = none) :
    createNode ctx cfg opts
      = .error (.noTransformer (jsToString opts.internal.mimeType)) := by
  simp [createNode, createInternals, transformNodeOptions, transform, hc, hm, ht]

/-- Options declaring both a mime type and raw content. -/
def optsMimeContent : NodeOptions :=
  { id := .str "x", path := .str "/p",
    internal := { mimeType := .str "text/markdown", content := .str "raw" } }

/-- Witness for `createNode_missing_transformer_error` at a concrete
input. -/
theorem createNode_missing_transformer_error_witness :
    createNode ctxW cfgPost optsMimeContent
      = .error (.noTransformer "text/markdown") := by
  have h := createNode_missing_transformer_error ctxW cfgPost optsMimeContent
    (by decide) (by decide) (by simp [ctxW, jsToString, optsMimeContent])
  simpa [jsToString, optsMimeContent] using h

/-- Witness for `inferType_falsy_and_lists` at concrete inputs: `count: 0`
and `tags: []` infer no type, `[3]` infers a list of its head's type. -/
theorem inferType_falsy_and_lists_witness :
    inferType (fun _ => false) (.num 0) "count" "Post" = none ∧
    inferType (fun _ => false) (.arr []) "tags" "Post" = none ∧
    inferType (fun _ => false) (.arr [.num 3]) "tags" "Post"
      = (inferType (fun _ => false) (.num 3) "tags" "Post").map GType.list := by
  exact ⟨(inferType_falsy_and_lists (fun _ => false) (.num 0) "count" "Post").1
           (by decide),
         (inferType_falsy_and_lists (fun _ => false) (.num 0) "tags" "Post").2.1,
         (inferType_falsy_and_lists (fun _ => false) (.num 0) "tags" "Post").2.2
           (.num 3) []⟩


/-! ### C2 — transformer output versus caller options -/

/-- A transformer whose parse result always carries the title `B`. -/
def trB : Transformer := { parse := fun _ => { title := .str "B" } }

/-- Context registering `trB` for mime type `text/md`. -/
def ctxTr : Ctx :=
  { nowISO := "2020-01-01T00:00:00.000Z",
    transformers := fun m => if m == "text/md" then some trB else none }

/-- Caller options that explicitly supply the title `A` together with
transformable raw content. -/
def optsA : NodeOptions :=
  { id := .str "x", title := .str "A", path := .str "/p",
    internal := { mimeType := .str "text/md", content := .str "raw" } }

/-- What `createNode ctxTr cfgPost optsA` evaluates to: the transformer's
title `B` replaced the caller's `A`. -/
def crA : CreateRes where
  node :=
    { id := .str "x"
      _id := .str "x"
      typeName := "Post"
      uid := "Postx"
      internal :=
        { origin := .undefined
          mimeType := .str "text/md"
          content := .str "raw"
          timestamp := 0 }
      title := .str "B"
      date := .str "2020-01-01T00:00:00.000Z"
      slug := .str "b"
      content := .str ""
      excerpt := .str ""
      withPath := true
      fields := []
      path := "/p" }
  belongsTo := []

/-- Concrete evaluation of `createNode` with transformer `trB` and an
explicitly supplied title. -/
theorem createNode_trA_eval : createNode ctxTr cfgPost optsA = .ok crA := by
  simp [createNode, createInternals, transformNodeOptions, transform, optsA,
    ctxTr, trB, cfgPost, pnf_trivial, JValue.jsOr, JValue.truthy, slugChain,
    slugifyJS, jsGet, JValue.isStr, normalizePath, slugifyStr, collapseSep,
    asciiToLower, isAsciiAlnum, isAsciiAlpha, isAsciiUpper, isAsciiLower,
    isAsciiDigit, jsToString, jsAssign, jsOwnProps, crA]

/-- C2 counterexample: the claim says transformer output never overrides
an explicitly supplied option; but with `options.title = 'A'` and a
transformer returning title `'B'`, the created node's title is `'B'`. -/
theorem transformer_override_counterexample :
    optsA.title = .str "A" ∧
    (createNode ctxTr cfgPost optsA).map (fun c => c.node.title)
      = .ok (.str "B") := by
  refine ⟨rfl, ?_⟩
  simp [createNode_trA_eval, crA, Except.map]

/-- C2 (amended): the transformer's parse result is merged **over** the
caller-supplied options — for each of `title`, `slug`, `path`, `date`,
`content`, `excerpt`, a truthy transformer value replaces the caller's,
which survives only when the transformer result for that key is falsy
(`result.fields` entries likewise overwrite same-key caller field
entries before normalization). -/
theorem createNode_transformer_overrides (ctx : Ctx) (cfg : CollCfg)
    (opts : NodeOptions) (t : Transformer) (r : TransformResult) (c : CreateRes)
    (hc : opts.internal.content.truthy = true)
    (hm : opts.internal.mimeType.truthy = true)
    (ht : ctx.transformers (jsToString opts.internal.mimeType) = some t)
    (hr : t.parse opts.internal.content = r)
    (h : createNode ctx cfg opts = .ok c) :
    (r.title.truthy = true → c.node.title = r.title) ∧
    (r.date.truthy = true → c.node.date = r.date) ∧
    (r.slug.truthy = true → c.node.slug = r.slug) ∧
    (r.content.truthy = true → c.node.content = r.content) ∧
    (r.excerpt.truthy = true → c.node.excerpt = r.excerpt) ∧
    (∀ p, r.path = .str p → p ≠ "" → c.node.path = normalizePath p) := by
  obtain ⟨opts', slug, hO, hS, hcr⟩ := createNode_ok_inversion ctx cfg opts c h
  simp only [cnOpts, cnInternal, createInternals, hc, hm, Bool.and_self, if_true,
    transformNodeOptions, transform, ht, hr, Except.ok.injEq] at hO
  have eT : opts'.title = if r.title.truthy = true then r.title else opts.title := by
    rw [← hO]; simp [apply_ite NodeOptions.title]
  have eD : opts'.date = if r.date.truthy = true then r.date else opts.date := by
    rw [← hO]; simp [apply_ite NodeOptions.date]
  have eS : opts'.slug = if r.slug.truthy = true then r.slug else opts.slug := by
    rw [← hO]; simp [apply_ite NodeOptions.slug]
  have eC : opts'.content = if r.content.truthy = true then r.content else opts.content := by
    rw [← hO]; simp [apply_ite NodeOptions.content]
  have eE : opts'.excerpt = if r.excerpt.truthy = true then r.excerpt else opts.excerpt := by
    rw [← hO]; simp [apply_ite NodeOptions.excerpt]
  have eP : opts'.path = if r.path.truthy = true then r.path else opts.path := by
    rw [← hO]; simp [apply_ite NodeOptions.path]
  subst hcr
  refine ⟨fun hrt => ?_, fun hrd => ?_, fun hrs => ?_, fun hrc => ?_,
          fun hre => ?_, fun p hrp hp => ?_⟩
  · simp [cnNode, cnTitle, JValue.jsOr, eT, hrt]
  · simp [cnNode, JValue.jsOr, eD, hrd]
  · simp only [cnSlugE, slugChain, eS, hrs, if_true, Except.ok.injEq] at hS
    simp [cnNode, ← hS]
  · simp [cnNode, JValue.jsOr, eC, hrc]
  · simp [cnNode, JValue.jsOr, eE, hre]
  · have htr : (JValue.str p).truthy = true := by simp [JValue.truthy, hp]
    simp [cnNode, eP, hrp, htr]

/-- Witness for `createNode_transformer_overrides` at a concrete input. -/
theorem createNode_transformer_overrides_witness :
    createNode ctxTr cfgPost optsA = .ok crA ∧ crA.node.title = .str "B" := by
  refine ⟨createNode_trA_eval, ?_⟩
  exact (createNode_transformer_overrides ctxTr cfgPost optsA trB
    { title := .str "B" } crA (by decide) (by decide)
    (by simp [ctxTr, jsToString, optsA, trB]) rfl createNode_trA_eval).1 (by decide)

/-! ### Inversion scaffolding for `updateNode` -/

/-- The resolved title on update: fallback is the previous title. -/
def unTitle (ctx : Ctx) (cfg : CollCfg) (opts opts' : NodeOptions) (node : Node) :
    JValue :=
  opts'.title.jsOr ((jsGet (cnFieldsBT ctx cfg opts opts').1 "title").jsOr node.title)

/-- The (fallible) resolved slug on update: fallback is the slugified
**new** title, not the previous slug. -/
def unSlugE (ctx : Ctx) (cfg : CollCfg) (opts opts' : NodeOptions) (node : Node) :
    Except JSErr JValue :=
  slugChain opts'.slug (jsGet (cnFieldsBT ctx cfg opts opts').1 "slug")
    (unTitle ctx cfg opts opts' node)

/-- The node after the display-field and internal updates (old fields and
path still in place, as in the source when `makePath` runs). -/
def unNode1 (ctx : Ctx) (cfg : CollCfg) (opts opts' : NodeOptions) (node : Node)
    (slug : JValue) : Node :=
  { node with
    title := unTitle ctx cfg opts opts' node
    date := opts'.date.jsOr ((jsGet (cnFieldsBT ctx cfg opts opts').1 "date").jsOr node.date)
    slug := slug
    content := opts'.content.jsOr ((jsGet (cnFieldsBT ctx cfg opts opts').1 "content").jsOr node.content)
    excerpt := opts'.excerpt.jsOr ((jsGet (cnFieldsBT ctx cfg opts opts').1 "excerpt").jsOr node.excerpt)
    internal := cnInternal ctx opts }

/-- The node `updateNode` returns. -/
def unNode2 (ctx : Ctx) (cfg : CollCfg) (opts opts' : NodeOptions) (node : Node)
    (slug : JValue) : Node :=
  { unNode1 ctx cfg opts opts' node slug with
    path := match opts'.path with
      | .str p => normalizePath p
      | _ => makePath ctx cfg (unNode1 ctx cfg opts opts' node slug)
    fields := (cnFieldsBT ctx cfg opts opts').1 }

/-- The store `updateNode` returns. -/
def unStore (ctx : Ctx) (s : Store) (tn : String) (id : JValue)
    (opts opts' : NodeOptions) (coll : Coll) (node : Node) (entry : IndexEntry)
    (slug : JValue) : Store :=
  { s with
    colls := replaceColl s.colls tn
      { coll with
        nodes := replaceFirstNode coll.nodes id (unNode2 ctx coll.cfg opts opts' node slug) }
    index := replaceFirstEntry s.index node.uid
      { entry with
        path := (unNode2 ctx coll.cfg opts opts' node slug).path
        belongsTo := (cnFieldsBT ctx coll.cfg opts opts').2 }
    events := s.events ++ [(some (unNode2 ctx coll.cfg opts opts' node slug), some node)] }

/-- Inversion of a successful `updateNode`. -/
theorem updateNode_ok_inversion (ctx : Ctx) (s : Store) (tn : String)
    (id : JValue) (opts : NodeOptions) (s' : Store) (n' : Node)
    (h : updateNode ctx s tn id opts = .ok (s', n')) :
    ∃ coll node entry opts' slug,
      s.colls.find? (fun c => c.cfg.typeName == tn) = some coll ∧
      coll.nodes.find? (fun n => beqJ n.id id) = some node ∧
      s.index.find? (fun e => e.uid == node.uid) = some entry ∧
      cnOpts ctx opts = .ok opts' ∧
      unSlugE ctx coll.cfg opts opts' node = .ok slug ∧
      n' = unNode2 ctx coll.cfg opts opts' node slug ∧
      s' = unStore ctx s tn id opts opts' coll node entry slug := by
  simp only [updateNode] at h
  rcases hf : s.colls.find? (fun c => c.cfg.typeName == tn) with _ | coll
  · simp only [hf] at h
    exact absurd h (by simp)
  · simp only [hf] at h
    rcases hn : coll.nodes.find? (fun n => beqJ n.id id) with _ | node
    · simp only [hn] at h
      exact absurd h (by simp)
    · simp only [hn] at h
      rcases he : s.index.find? (fun e => e.uid == node.uid) with _ | entry
      · simp only [he] at h
        exact absurd h (by simp)
      · simp only [he] at h
        rcases hO : cnOpts ctx opts with e | opts'
        · have hO2 := hO
          simp only [cnOpts, cnInternal] at hO2
          simp only [hO2] at h
          exact absurd h (by simp)
        · have hO2 := hO
          simp only [cnOpts, cnInternal] at hO2
          simp only [hO2] at h
          rcases hS : unSlugE ctx coll.cfg opts opts' node with e | slug
          · have hS2 := hS
            simp only [unSlugE, unTitle, cnFieldsBT, cnInternal] at hS2
            simp only [hS2] at h
            exact absurd h (by simp)
          · have hS2 := hS
            simp only [unSlugE, unTitle, cnFieldsBT, cnInternal] at hS2
            simp only [hS2, Except.ok.injEq, Prod.mk.injEq] at h
            exact ⟨coll, node, entry, opts', slug, hf, hn, he, rfl, hS,
              h.2.symm, h.1.symm⟩

/-! ### C10 — update frame -/

/-- A stored fixture node (as `addNode` would have produced it, with an
explicitly supplied slug). -/
def nW : Node :=
  { id := .str "a"
    _id := .str "a"
    typeName := "Post"
    uid := "Posta"
    internal := internalsW
    title := .str "Hello World"
    date := .str "2020-01-01T00:00:00.000Z"
    slug := .str "custom"
    content := .str ""
    excerpt := .str ""
    withPath := true
    fields := [("tag", .str "x")]
    path := "/same-path" }

/-- The fixture node's index entry. -/
def entryW : IndexEntry :=
  { tpe := "node", path := "/same-path", typeName := "Post", uid := "Posta",
    id := .str "a", belongsTo := [], _id := .str "a" }

/-- A store holding the fixture node and its index entry. -/
def s1W : Store := { index := [entryW], colls := [{ cfg := cfgPost, nodes := [nW] }] }

/-- C10: a successful `updateNode` leaves the node's `id`, `_id`, `uid`,
`typeName` (and `withPath`) unchanged, and the only index mutation is the
in-place replacement of the node's own entry with one differing from the
old entry in `path` and `belongsTo` alone. -/
theorem updateNode_frame (ctx : Ctx) (s : Store) (tn : String) (id : JValue)
    (opts : NodeOptions) (s' : Store) (n' : Node)
    (h : updateNode ctx s tn id opts = .ok (s', n')) :
    ∃ node entry, getNode s tn id = some node ∧
      s.index.find? (fun e => e.uid == node.uid) = some entry ∧
      n'.id = node.id ∧ n'._id = node._id ∧ n'.uid = node.uid ∧
      n'.typeName = node.typeName ∧ n'.withPath = node.withPath ∧
      ∃ bt, s'.index = replaceFirstEntry s.index node.uid
        { entry with path := n'.path, belongsTo := bt } := by
  obtain ⟨coll, node, entry, opts', slug, hf, hn, he, hO, hS, hN, hs'⟩ :=
    updateNode_ok_inversion ctx s tn id opts s' n' h
  refine ⟨node, entry, ?_, he, ?_, ?_, ?_, ?_, ?_,
    ⟨(cnFieldsBT ctx coll.cfg opts opts').2, ?_⟩⟩
  · simp [getNode, hf, hn]
  · subst hN; simp [unNode2, unNode1]
  · subst hN; simp [unNode2, unNode1]
  · subst hN; simp [unNode2, unNode1]
  · subst hN; simp [unNode2, unNode1]
  · subst hN; simp [unNode2, unNode1]
  · subst hs' hN
    simp [unStore]

/-- Witness for `updateNode_frame` at a concrete store. -/
theorem updateNode_frame_witness :
    ∃ s' n', updateNode ctxW s1W "Post" (.str "a") ({} : NodeOptions) = .ok (s', n') ∧
      n'.id = .str "a" ∧ n'.uid = "Posta" ∧ n'.typeName = "Post" := by
  have hex : ∃ r, updateNode ctxW s1W "Post" (.str "a") ({} : NodeOptions) = .ok r := by
    simp [updateNode, createInternals, transformNodeOptions, s1W, nW, entryW, ctxW,
      cfgPost, internalsW, beqJ, pnf_trivial, JValue.jsOr, JValue.truthy, slugChain,
      slugifyJS, jsGet, JValue.isStr, normalizePath, slugifyStr, collapseSep,
      asciiToLower, isAsciiAlnum, isAsciiAlpha, isAsciiUpper, isAsciiLower,
      isAsciiDigit, jsToString, makePath, replaceColl, replaceFirstNode,
      replaceFirstEntry]
  obtain ⟨⟨s', n'⟩, hr⟩ := hex
  obtain ⟨node, entry, hg, he, hid, hid2, huid, htn, hwp, hidx⟩ :=
    updateNode_frame ctxW s1W "Post" (.str "a") {} s' n' hr
  have hgv : getNode s1W "Post" (.str "a") = some nW := by
    simp [getNode, s1W, cfgPost, beqJ, nW]
  rw [hgv] at hg
  have hnode : node = nW := by
    cases hg
    rfl
  subst hnode
  exact ⟨s', n', hr, by rw [hid]; rfl, by rw [huid]; rfl, by rw [htn]; rfl⟩

/-! ### C3 — update precedence and idempotence -/

/-- C3 counterexample: the node's slug does not fall back to its previous
value.  The stored node has slug `custom`; `updateNode` with empty
options (no slug, no fields) recomputes the slug as the slugified (new)
title `hello-world`. -/
theorem updateNode_slug_counterexample :
    nW.slug = .str "custom" ∧ ({} : NodeOptions).slug = .undefined ∧
    (updateNode ctxW s1W "Post" (.str "a") {}).map (fun r => r.2.slug)
      = .ok (.str "hello-world") := by
  refine ⟨rfl, rfl, ?_⟩
  simp [updateNode, createInternals, transformNodeOptions, s1W, nW, entryW, ctxW,
    cfgPost, internalsW, beqJ, pnf_trivial, JValue.jsOr, JValue.truthy, slugChain,
    slugifyJS, jsGet, JValue.isStr, normalizePath, slugifyStr, collapseSep,
    asciiToLower, isAsciiAlnum, isAsciiAlpha, isAsciiUpper, isAsciiLower,
    isAsciiDigit, jsToString, makePath, replaceColl, replaceFirstNode,
    replaceFirstEntry, Except.map]

/-- C3 (amended): `updateNode` recomputes `title`, `date`, `content` and
`excerpt` with the creation precedence (explicit option, then normalized
field) falling back to the **previous** node value, but the `slug`
fallback is the slugified new title rather than the previous slug; the
path is recomputed unless explicitly supplied.  Consequently, passing the
previously-returned `title`, `date`, `slug`, `content`, `excerpt`, `path`,
`fields` and `internal` values back (on a node whose stored display
values take precedence over its normalized fields, whose path is
normalized, whose fields re-normalize to themselves, and whose internal
content/mimeType do not trigger a transformer) yields a node deep-equal
to the pre-update node except for `internal.timestamp`. -/
theorem updateNode_prev_values (ctx : Ctx) (s : Store) (tn : String) (id : JValue)
    (opts : NodeOptions) (s' : Store) (n' : Node) (coll : Coll) (node : Node)
    (entry : IndexEntry) (bt : BelongsTo)
    (hcf : s.colls.find? (fun c => c.cfg.typeName == tn) = some coll)
    (hnf : coll.nodes.find? (fun n => beqJ n.id id) = some node)
    (hef : s.index.find? (fun e => e.uid == node.uid) = some entry)
    (hopts : opts =
      { title := node.title
        slug := node.slug
        path := .str node.path
        date := node.date
        content := node.content
        excerpt := node.excerpt
        fields := .obj node.fields
        internal :=
          { origin := node.internal.origin
            mimeType := node.internal.mimeType
            content := node.internal.content } })
    (hnotr : (node.internal.content.truthy && node.internal.mimeType.truthy) = false)
    (htitle : node.title.truthy = true)
    (hdate : node.date.truthy = true)
    (hslug : node.slug.truthy = true)
    (hcon : node.content.truthy = true ∨ (jsGet node.fields "content").truthy = false)
    (hexc : node.excerpt.truthy = true ∨ (jsGet node.fields "excerpt").truthy = false)
    (hpath : normalizePath node.path = node.path)
    (hfields : processNodeFields ctx coll.cfg (.obj node.fields) node.internal.origin
        = (node.fields, bt))
    (h : updateNode ctx s tn id opts = .ok (s', n')) :
    n' = { node with internal := { node.internal with timestamp := ctx.now } } := by
  have jsOr_absorb : ∀ a b : JValue, a.truthy = true ∨ b.truthy = false →
      a.jsOr (b.jsOr a) = a := by
    intro a b hab
    cases ha : a.truthy <;> cases hb : b.truthy <;> simp_all [JValue.jsOr]
  obtain ⟨coll₀, node₀, entry₀, opts', slug, hf, hn, he, hO, hS, hN, hs'⟩ :=
    updateNode_ok_inversion ctx s tn id opts s' n' h
  rw [hcf] at hf
  cases hf
  rw [hnf] at hn
  cases hn
  rw [hef] at he
  cases he
  -- no transformer content: the effective options are the caller options
  rw [cnOpts] at hO
  simp only [cnInternal, createInternals, hopts, hnotr, Bool.false_eq_true,
    if_false, Except.ok.injEq] at hO
  subst hO
  have hFB : cnFieldsBT ctx coll.cfg opts
      { title := node.title
        slug := node.slug
        path := .str node.path
        date := node.date
        content := node.content
        excerpt := node.excerpt
        fields := .obj node.fields
        internal :=
          { origin := node.internal.origin
            mimeType := node.internal.mimeType
            content := node.internal.content } } = (node.fields, bt) := by
    simp only [cnFieldsBT, cnInternal, createInternals, hopts]
    exact hfields
  have hcon' : node.content.jsOr ((jsGet node.fields "content").jsOr node.content)
      = node.content := jsOr_absorb _ _ hcon
  have hexc' : node.excerpt.jsOr ((jsGet node.fields "excerpt").jsOr node.excerpt)
      = node.excerpt := jsOr_absorb _ _ hexc
  have hslug' : slug = node.slug := by
    simp [unSlugE, slugChain, hslug, hFB] at hS
    exact hS.symm
  subst hslug'
  rw [hopts] at hFB
  rw [hN]
  simp [unNode2, unNode1, unTitle, hFB, JValue.jsOr, htitle, hdate, hpath,
    hcon', hexc', cnInternal, createInternals, hopts]
  constructor
  · intro h1 h2
    rcases hcon with hc1 | hc1
    · simp [h1] at hc1
    · simp [h2] at hc1
  · intro h1 h2
    rcases hexc with hc1 | hc1
    · simp [h1] at hc1
    · simp [h2] at hc1

def optsPrev : NodeOptions :=
  { title := .str "Hello World"
    slug := .str "custom"
    path := .str "/same-path"
    date := .str "2020-01-01T00:00:00.000Z"
    content := .str ""
    excerpt := .str ""
    fields := .obj [("tag", .str "x")]
    internal := {} }

theorem updateNode_prev_values_witness :
    ∃ s' n', updateNode ctxW s1W "Post" (.str "a") optsPrev = .ok (s', n') ∧
      n' = { nW with internal := { nW.internal with timestamp := ctxW.now } } := by
  have hfields : processNodeFields ctxW cfgPost (.obj [("tag", .str "x")])
      nW.internal.origin = (nW.fields, []) := by
    simp [processNodeFields, processFieldsTop, processFieldsProps, processField,
      startsDunder, createKey, camelCaseL, jsTrim, isJsSpace, lowerAll, skipSeps,
      uas, isSepChar, asciiToLower, isAsciiUpper, jsIsWordChar, isAsciiAlnum,
      isAsciiAlpha, isAsciiLower, isAsciiDigit, jsUpsert, ctxW, cfgPost, nW,
      internalsW, pfp_nil]
  have hex : ∃ r, updateNode ctxW s1W "Post" (.str "a") optsPrev = .ok r := by
    simp [updateNode, createInternals, transformNodeOptions, s1W, nW, entryW, ctxW,
      cfgPost, internalsW, beqJ, JValue.jsOr, JValue.truthy, slugChain,
      slugifyJS, jsGet, JValue.isStr, normalizePath, slugifyStr, collapseSep,
      asciiToLower, isAsciiAlnum, isAsciiAlpha, isAsciiUpper, isAsciiLower,
      isAsciiDigit, jsToString, makePath, replaceColl, replaceFirstNode,
      replaceFirstEntry, optsPrev, processNodeFields, processFieldsTop,
      processFieldsProps, processField, startsDunder, createKey, camelCaseL,
      jsTrim, isJsSpace, lowerAll, skipSeps, uas, isSepChar, jsIsWordChar,
      jsUpsert, pfp_nil]
  obtain ⟨⟨s', n'⟩, hr⟩ := hex
  refine ⟨s', n', hr, ?_⟩
  exact updateNode_prev_values ctxW s1W "Post" (.str "a") optsPrev s' n'
    ⟨cfgPost, [], [nW]⟩ nW entryW []
    rfl (by simp [beqJ, nW]) rfl rfl (by decide) (by decide) (by decide)
    (by decide) (Or.inr (by decide)) (Or.inr (by decide)) (by decide)
    (by simpa [nW] using hfields) hr

/-- `Char.ofNat` below the surrogate range keeps its code point. -/
theorem toNat_ofNat_lt (n : Nat) (h : n < 55296) : (Char.ofNat n).toNat = n := by
  simp [Char.ofNat, Char.toNat, Nat.isValidChar, h, Char.ofNatAux, UInt32.toNat,
    BitVec.toNat_ofNatLt]

theorem jsGet_jsUpsert_self (props : List (String × JValue)) (k : String)
    (v : JValue) : jsGet (jsUpsert props k v) k = v := by
  induction props with
  | nil => simp [jsUpsert, jsGet, List.lookup]
  | cons p rest ih =>
    rcases p with ⟨k₁, v₁⟩
    simp only [jsUpsert]
    split
    · rename_i he
      simp [jsGet, List.lookup, he]
    · rename_i he
      have hne : (k == k₁) = false := by
        simp only [beq_eq_false_iff_ne, ne_eq]
        exact fun he2 => he he2.symm
      simpa [jsGet, List.lookup, hne] using ih

theorem jsGet_jsUpsert_other (props : List (String × JValue)) (k' k : String)
    (v : JValue) (h : k' ≠ k) :
    jsGet (jsUpsert props k' v) k = jsGet props k := by
  have hkk : (k == k') = false := by
    simp only [beq_eq_false_iff_ne, ne_eq]
    exact fun he => h he.symm
  induction props with
  | nil => simp [jsUpsert, jsGet, List.lookup, hkk]
  | cons p rest ih =>
    rcases p with ⟨k₁, v₁⟩
    simp only [jsUpsert]
    split
    · rename_i he
      subst he
      simp [jsGet, List.lookup, hkk]
    · by_cases hk1 : (k == k₁) = true
      · simp [jsGet, List.lookup, hk1]
      · rw [Bool.not_eq_true] at hk1
        simpa [jsGet, List.lookup, hk1] using ih

/-- Word-or-dash characters: everything the intermediate strings of
`createKey` can contain. -/
def wchd (c : Char) : Bool := jsIsWordChar c || c == '-'

theorem word_not_space (c : Char) (h : jsIsWordChar c = true) :
    isJsSpace c = false := by
  by_contra hs
  rw [Bool.not_eq_false] at hs
  simp only [isJsSpace, Bool.or_eq_true, beq_iff_eq] at hs
  rcases hs with ((rfl | rfl) | rfl) | rfl <;> exact absurd h (by decide)

theorem alnum_lower (c : Char) (h : isAsciiAlnum c = true) :
    isAsciiAlnum (asciiToLower c) = true := by
  unfold asciiToLower
  by_cases hu : isAsciiUpper c = true
  · rw [if_pos hu]
    have hb : 65 ≤ c.toNat ∧ c.toNat ≤ 90 := by
      simpa [isAsciiUpper, Bool.and_eq_true, decide_eq_true_iff] using hu
    have h2 : (Char.ofNat (c.toNat + 32)).toNat = c.toNat + 32 :=
      toNat_ofNat_lt _ (by omega)
    simp only [isAsciiAlnum, isAsciiAlpha, isAsciiLower, isAsciiUpper,
      isAsciiDigit, h2, Bool.or_eq_true, Bool.and_eq_true, decide_eq_true_iff]
    omega
  · rw [if_neg hu]
    exact h

theorem alnum_upper (c : Char) (h : isAsciiAlnum c = true) :
    isAsciiAlnum (asciiToUpper c) = true := by
  unfold asciiToUpper
  by_cases hl : isAsciiLower c = true
  · rw [if_pos hl]
    have hb : 97 ≤ c.toNat ∧ c.toNat ≤ 122 := by
      simpa [isAsciiLower, Bool.and_eq_true, decide_eq_true_iff] using hl
    have h2 : (Char.ofNat (c.toNat - 32)).toNat = c.toNat - 32 :=
      toNat_ofNat_lt _ (by omega)
    simp only [isAsciiAlnum, isAsciiAlpha, isAsciiLower, isAsciiUpper,
      isAsciiDigit, h2, Bool.or_eq_true, Bool.and_eq_true, decide_eq_true_iff]
    omega
  · rw [if_neg hl]
    exact h

theorem wchd_cases (c : Char) (h : wchd c = true) :
    isAsciiAlnum c = true ∨ c = '_' ∨ c = '-' := by
  simp only [wchd, jsIsWordChar, Bool.or_eq_true, beq_iff_eq] at h
  tauto

theorem wchd_lower (c : Char) (h : wchd c = true) :
    wchd (asciiToLower c) = true := by
  rcases wchd_cases c h with hc | rfl | rfl
  · simp [wchd, jsIsWordChar, alnum_lower c hc]
  · decide
  · decide

theorem sep_or_alnum (c : Char) (h : wchd c = true) :
    (isSepChar c || isAsciiAlnum c) = true := by
  rcases wchd_cases c h with hc | rfl | rfl
  · simp [hc]
  · decide
  · decide

theorem jsTrim_of_word (l : List Char) (h : l.all jsIsWordChar = true) :
    jsTrim l = l := by
  have hds : ∀ m : List Char, m.all jsIsWordChar = true →
      m.dropWhile isJsSpace = m := by
    intro m hm
    cases m with
    | nil => rfl
    | cons c r =>
      simp only [List.all_cons, Bool.and_eq_true] at hm
      simp [List.dropWhile, word_not_space c hm.1]
  unfold jsTrim
  rw [hds l h, hds l.reverse (by simpa using h), List.reverse_reverse]

theorem wchd_dash : wchd '-' = true := by decide

theorem pccGo_wchd (l : List Char) : ∀ (a b cc : Bool) (acc : List Char),
    l.all wchd = true → acc.all wchd = true →
    (pccGo a b cc acc l).all wchd = true := by
  induction l with
  | nil =>
    intro a b cc acc _ hacc
    simpa [pccGo] using hacc
  | cons c r ih =>
    intro a b cc acc hl hacc
    simp only [List.all_cons, Bool.and_eq_true] at hl
    simp only [pccGo]
    split
    · exact ih _ _ _ _ hl.2 (by simp [hacc, hl.1, wchd_dash])
    · split
      · cases acc with
        | nil => exact ih _ _ _ _ hl.2 (by simp [hl.1, wchd_dash])
        | cons p t =>
          simp only [List.all_cons, Bool.and_eq_true] at hacc
          exact ih _ _ _ _ hl.2 (by simp [hacc.1, hacc.2, hl.1, wchd_dash])
      · exact ih _ _ _ _ hl.2 (by simp [hacc, hl.1, wchd_dash])

theorem skipSeps_all (l : List Char) (h : l.all wchd = true) :
    (skipSeps l).all wchd = true := by
  induction l with
  | nil => simp [skipSeps]
  | cons c r ih =>
    simp only [List.all_cons, Bool.and_eq_true] at h
    rw [skipSeps]
    split
    · exact ih h.2
    · simp [h.1, h.2]

theorem uas_alnum (l : List Char) :
    ∀ p : Bool, (l.all fun c => isSepChar c || isAsciiAlnum c) = true →
    (uas p l).all isAsciiAlnum = true := by
  induction l with
  | nil => intro p _; simp [uas]
  | cons c r ih =>
    intro p h
    simp only [List.all_cons, Bool.and_eq_true] at h
    have hc : isSepChar c = true ∨ isAsciiAlnum c = true := by
      simpa [Bool.or_eq_true] using h.1
    rw [uas]
    split
    · exact ih _ h.2
    · rename_i hns
      have hca : isAsciiAlnum c = true := by
        rcases hc with hc | hc
        · exact absurd hc hns
        · exact hc
      split
      · simp [alnum_upper c hca, ih _ h.2]
      · simp [hca, ih _ h.2]

theorem camelCaseL_wordish (l : List Char) (h : l.all jsIsWordChar = true) :
    (camelCaseL false l).all isAsciiAlnum = true ∨ camelCaseL false l = ['_'] := by
  have hwchd : l.all wchd = true := by
    simp only [List.all_eq_true] at h ⊢
    intro c hc
    simp [wchd, h c hc]
  simp only [camelCaseL, jsTrim_of_word l h]
  match l, h, hwchd with
  | [], _, _ => left; simp
  | [c], h, _ =>
    simp only [List.all_cons, List.all_nil, Bool.and_true] at h
    simp only [jsIsWordChar, Bool.or_eq_true, beq_iff_eq] at h
    rcases h with hc | rfl
    · left
      simp [alnum_lower c hc]
    · right
      rfl
  | c :: d :: r, h, hwchd =>
    left
    set input := c :: d :: r with hinput
    have hpres : (if input = lowerAll input then input
        else preserveCamel input).all wchd = true := by
      split
      · exact hwchd
      · exact pccGo_wchd input false false false [] hwchd rfl
    have hskip := skipSeps_all _ hpres
    have hlow : (lowerAll (skipSeps (if input = lowerAll input then input
        else preserveCamel input))).all wchd = true := by
      simp only [lowerAll, List.all_map, List.all_eq_true] at hskip ⊢
      intro x hx
      exact wchd_lower x (hskip x hx)
    have hsa : ((lowerAll (skipSeps (if input = lowerAll input then input
        else preserveCamel input))).all fun c =>
          isSepChar c || isAsciiAlnum c) = true := by
      simp only [List.all_eq_true] at hlow ⊢
      intro x hx
      exact sep_or_alnum x (hlow x hx)
    exact uas_alnum _ false hsa

/-- The grammar the sanitized keys actually satisfy: empty, or a first
character that is a letter or `_`, followed by letters and digits only
(so `_` alone and `_` before a digit are allowed, unlike the spec's
grammar). -/
def sanitizedKeyOk (s : String) : Bool :=
  match s.data with
  | [] => true
  | c :: rest => ((isAsciiAlnum c && !isAsciiDigit c) || c == '_') &&
      rest.all isAsciiAlnum

/-- Modelled from the spec: the identifier grammar it claims for
sanitized keys, `^_?[a-zA-Z][a-zA-Z0-9]*$` (an optional single leading
underscore, then a letter, then letters and digits). -/
def specKeyGrammar (s : String) : Bool :=
  match s.data with
  | '_' :: c :: rest => isAsciiAlpha c && rest.all isAsciiAlnum
  | c :: rest => isAsciiAlpha c && rest.all isAsciiAlnum
  | [] => false

theorem createKey_sanitizedKeyOk (k : String) :
    sanitizedKeyOk (createKey k) = true := by
  simp only [createKey]
  have hstep1 : (k.data.map fun c => if jsIsWordChar c then c else '_').all
      jsIsWordChar = true := by
    simp only [List.all_map, List.all_eq_true, Function.comp]
    intro c _
    split
    · rename_i hc; exact hc
    · decide
  rcases camelCaseL_wordish _ hstep1 with hall | heq
  · cases hc2 : camelCaseL false (k.data.map fun c =>
        if jsIsWordChar c then c else '_') with
    | nil => simp [sanitizedKeyOk]
    | cons c rest =>
      rw [hc2] at hall
      simp only [List.all_cons, Bool.and_eq_true] at hall
      by_cases hd : isAsciiDigit c = true
      · simp [sanitizedKeyOk, hall.1, hall.2, hd]
      · simp only [Bool.not_eq_true] at hd
        simp [sanitizedKeyOk, hall.1, hall.2, hd]
  · rw [heq]
    decide

theorem dunder_not_sanitized (s : String) (h : startsDunder s = true) :
    sanitizedKeyOk s = false := by
  unfold startsDunder at h
  unfold sanitizedKeyOk
  split at h
  · rename_i heq
    rw [heq]
    simp [isAsciiAlnum, isAsciiAlpha, isAsciiUpper, isAsciiLower, isAsciiDigit]
  · exact absurd h (by simp)

theorem pfp_preserves (props : List (String × JValue)) :
    ∀ (ir : String → Bool) (res : String → String) (b : BelongsTo)
      (acc : List (String × JValue)) (k : String),
    startsDunder k = true → (∀ p ∈ props, p.1 ≠ k) →
    jsGet (processFieldsProps ir res b acc props).2 k = jsGet acc k := by
  induction props with
  | nil =>
    intro ir res b acc k _ _
    simp [processFieldsProps]
  | cons p rest ih =>
    intro ir res b acc k hk hne
    rcases p with ⟨k₁, w⟩
    have hk₁ : k₁ ≠ k := hne (k₁, w) (by simp)
    have hne' : ∀ p ∈ rest, p.1 ≠ k := fun p hp => hne p (by simp [hp])
    have hck : createKey k₁ ≠ k := by
      intro he
      have h1 := createKey_sanitizedKeyOk k₁
      rw [he, dunder_not_sanitized k hk] at h1
      exact Bool.false_ne_true h1
    cases w
    case arr xs =>
      rcases hq : processFieldList ir res b xs with ⟨b2, xs2⟩
      simp only [processFieldsProps, hq]
      split
      · rw [ih ir res b _ k hk hne', jsGet_jsUpsert_other _ _ _ _ hk₁]
      · rw [ih ir res b2 _ k hk hne', jsGet_jsUpsert_other _ _ _ _ hck]
    case obj ps =>
      rcases hq : processFieldsProps ir res
          (if isRefField (JValue.obj ps) then collectRef b ps else b) [] ps
        with ⟨b2, out2⟩
      simp only [processFieldsProps, processField, hq]
      split
      · rw [ih ir res b _ k hk hne', jsGet_jsUpsert_other _ _ _ _ hk₁]
      · rw [ih ir res b2 _ k hk hne', jsGet_jsUpsert_other _ _ _ _ hck]
    all_goals
      simp only [processFieldsProps, processField]
      split
      · rw [ih ir res b _ k hk hne', jsGet_jsUpsert_other _ _ _ _ hk₁]
      · rw [ih ir res b _ k hk hne', jsGet_jsUpsert_other _ _ _ _ hck]

theorem pfp_dunder (props : List (String × JValue)) :
    ∀ (ir : String → Bool) (res : String → String) (b : BelongsTo)
      (acc : List (String × JValue)) (k : String) (v : JValue),
    startsDunder k = true → (k, v) ∈ props → (jsKeys props).Nodup →
    jsGet (processFieldsProps ir res b acc props).2 k = v := by
  induction props with
  | nil =>
    intro ir res b acc k v _ hmem _
    exact absurd hmem (by simp)
  | cons p rest ih =>
    intro ir res b acc k v hk hmem hnd
    rcases p with ⟨k₁, w⟩
    simp only [jsKeys, List.map_cons, List.nodup_cons] at hnd
    rcases List.mem_cons.mp hmem with heq | hmem'
    · injection heq with h1 h2
      subst h1
      subst h2
      have hrest : ∀ p ∈ rest, p.1 ≠ k := by
        intro p hp hpe
        exact hnd.1 (hpe ▸ List.mem_map_of_mem Prod.fst hp)
      cases v
      all_goals
        simp only [processFieldsProps, hk, if_true]
        rw [pfp_preserves rest ir res b _ k hk hrest, jsGet_jsUpsert_self]
    · cases w
      case arr xs =>
        rcases hq : processFieldList ir res b xs with ⟨b2, xs2⟩
        simp only [processFieldsProps, hq]
        split
        · exact ih ir res b _ k v hk hmem' hnd.2
        · exact ih ir res b2 _ k v hk hmem' hnd.2
      case obj ps =>
        rcases hq : processFieldsProps ir res
            (if isRefField (JValue.obj ps) then collectRef b ps else b) [] ps
          with ⟨b2, out2⟩
        simp only [processFieldsProps, processField, hq]
        split
        · exact ih ir res b _ k v hk hmem' hnd.2
        · exact ih ir res b2 _ k v hk hmem' hnd.2
      all_goals
        simp only [processFieldsProps, processField]
        split
        · exact ih ir res b _ k v hk hmem' hnd.2
        · exact ih ir res b _ k v hk hmem' hnd.2

/-- C4 (amended): key sanitation.  Every key produced by `createKey`
matches the grammar `^[_a-zA-Z][a-zA-Z0-9]*$` or is empty: illegal
characters are replaced by `_`, the result is camel-cased, and a leading
digit is prefixed with `_` — so a sanitized key may be `_` alone or `_`
followed by a digit, which the spec's claimed grammar
`^_?[a-zA-Z][a-zA-Z0-9]*$` rejects.  Keys starting with `__` are
preserved byte-for-byte with their value unprocessed: when the input
object's keys are distinct, looking the original key up in the
normalized property list returns the original value unchanged. -/
theorem createKey_sanitized :
    (∀ k : String, sanitizedKeyOk (createKey k) = true) ∧
    (∀ (ir : String → Bool) (res : String → String) (b : BelongsTo)
       (props : List (String × JValue)) (k : String) (v : JValue),
       startsDunder k = true → (k, v) ∈ props → (jsKeys props).Nodup →
       jsGet (processFieldsProps ir res b [] props).2 k = v) :=
  ⟨createKey_sanitizedKeyOk,
   fun ir res b props k v hk hmem hnd => pfp_dunder props ir res b [] k v hk hmem hnd⟩

theorem createKey_sanitized_witness :
    sanitizedKeyOk (createKey "foo bar!") = true ∧
    jsGet (processFieldsProps (fun _ => false) id []
      [] [("__meta", .num 7), ("a b", .str "x")]).2 "__meta" = .num 7 :=
  ⟨createKey_sanitized.1 "foo bar!",
   createKey_sanitized.2 (fun _ => false) id []
     [("__meta", .num 7), ("a b", .str "x")] "__meta" (.num 7)
     (by decide) (by simp) (by simp [jsKeys])⟩

/-- C4 (counterexample): `createKey "1"` yields `"_1"`, which the spec's
claimed identifier grammar `^_?[a-zA-Z][a-zA-Z0-9]*$` rejects (after the
optional underscore a letter must follow, not a digit). -/
theorem createKey_spec_grammar_counterexample :
    createKey "1" = "_1" ∧ specKeyGrammar "_1" = false := by
  constructor
  · rfl
  · rfl

theorem lookup_append_left {β : Type} (l₁ l₂ : List (String × β)) (a : String)
    (v : β) (h : l₁.lookup a = some v) : (l₁ ++ l₂).lookup a = some v := by
  induction l₁ with
  | nil => simp [List.lookup] at h
  | cons p rest ih =>
    rcases p with ⟨k, w⟩
    simp only [List.cons_append, List.lookup] at h ⊢
    split at h
    · exact h
    · exact ih h

theorem lookup_append_right {β : Type} (l₁ l₂ : List (String × β)) (a : String)
    (h : l₁.lookup a = none) : (l₁ ++ l₂).lookup a = l₂.lookup a := by
  induction l₁ with
  | nil => simp
  | cons p rest ih =>
    rcases p with ⟨k, w⟩
    simp only [List.cons_append, List.lookup] at h ⊢
    split at h
    · exact absurd h (by simp)
    · exact ih h

theorem bGet_some (b : BelongsTo) (tn i : String) (h : bGet b tn i = true) :
    ∃ ids, b.lookup tn = some ids ∧ ids.contains i = true := by
  unfold bGet at h
  split at h
  · rename_i ids hl
    exact ⟨ids, hl, h⟩
  · exact absurd h (by simp)

theorem bGet_bEnsure_mono (b : BelongsTo) (tn' tn i : String)
    (h : bGet b tn i = true) : bGet (bEnsure b tn') tn i = true := by
  unfold bEnsure
  split
  · exact h
  · obtain ⟨ids, hl, hc⟩ := bGet_some b tn i h
    unfold bGet
    rw [lookup_append_left b _ tn ids hl]
    exact hc

theorem bEnsure_isSome (b : BelongsTo) (tn : String) :
    ((bEnsure b tn).lookup tn).isSome = true := by
  unfold bEnsure
  split
  · rename_i hs
    exact hs
  · rename_i hs
    rw [lookup_append_right b _ tn (by
      cases hl : b.lookup tn
      · rfl
      · rw [hl] at hs; simp at hs)]
    simp [List.lookup]

theorem bGet_bAddId_mono (b : BelongsTo) (tn' i' tn i : String)
    (h : bGet b tn i = true) : bGet (bAddId b tn' i') tn i = true := by
  induction b with
  | nil => simp [bGet, List.lookup] at h
  | cons p rest ih =>
    rcases p with ⟨k₁, ids₁⟩
    simp only [bAddId, List.map_cons]
    by_cases hke : k₁ = tn'
    · subst hke
      rw [if_pos rfl]
      by_cases hkt : (tn == k₁) = true
      · have he : k₁ = tn := (beq_iff_eq.mp hkt).symm
        subst he
        simp only [bGet, List.lookup, beq_self_eq_true] at h ⊢
        split
        · exact h
        · simp only [List.elem_iff] at h ⊢
          exact List.mem_append_left _ h
      · rw [Bool.not_eq_true] at hkt
        simp only [bGet, List.lookup, hkt] at h ⊢
        have hrec := ih h
        simp only [bGet, bAddId] at hrec
        exact hrec
    · rw [if_neg hke]
      by_cases hkt : (tn == k₁) = true
      · simp only [bGet, List.lookup, hkt] at h ⊢
        exact h
      · rw [Bool.not_eq_true] at hkt
        simp only [bGet, List.lookup, hkt] at h ⊢
        have hrec := ih h
        simp only [bGet, bAddId] at hrec
        exact hrec

theorem bGet_bAddId_self (b : BelongsTo) (tn i : String)
    (h : (b.lookup tn).isSome = true) : bGet (bAddId b tn i) tn i = true := by
  induction b with
  | nil => simp [List.lookup] at h
  | cons p rest ih =>
    rcases p with ⟨k₁, ids₁⟩
    simp only [bAddId, List.map_cons]
    by_cases hkt : (tn == k₁) = true
    · have he : k₁ = tn := (beq_iff_eq.mp hkt).symm
      subst he
      rw [if_pos rfl]
      simp only [bGet, List.lookup, beq_self_eq_true]
      split
      · rename_i hc
        exact hc
      · simp [List.elem_iff]
    · rw [Bool.not_eq_true] at hkt
      have hke : ¬(k₁ = tn) := by
        intro he
        simp [he] at hkt
      rw [if_neg hke]
      simp only [List.lookup, hkt] at h
      simp only [bGet, List.lookup, hkt]
      have hrec := ih h
      simp only [bGet, bAddId] at hrec
      exact hrec

theorem bAddId_isSome (b : BelongsTo) (tn' i' tn : String)
    (h : (b.lookup tn).isSome = true) :
    ((bAddId b tn' i').lookup tn).isSome = true := by
  induction b with
  | nil => simp [List.lookup] at h
  | cons p rest ih =>
    rcases p with ⟨k₁, ids₁⟩
    simp only [bAddId, List.map_cons]
    by_cases hke : k₁ = tn'
    · subst hke
      rw [if_pos rfl]
      by_cases hkt : (tn == k₁) = true
      · simp [List.lookup, hkt]
      · rw [Bool.not_eq_true] at hkt
        simp only [List.lookup, hkt] at h ⊢
        have hrec := ih h
        simp only [bAddId] at hrec
        exact hrec
    · rw [if_neg hke]
      by_cases hkt : (tn == k₁) = true
      · simp [List.lookup, hkt]
      · rw [Bool.not_eq_true] at hkt
        simp only [List.lookup, hkt] at h ⊢
        have hrec := ih h
        simp only [bAddId] at hrec
        exact hrec

theorem foldl_bAddId_mono (key : String) (ids : List JValue) :
    ∀ (b : BelongsTo) (tn i : String), bGet b tn i = true →
    bGet (ids.foldl (fun b x => bAddId b key (jsToString x)) b) tn i = true := by
  induction ids with
  | nil => intro b tn i h; exact h
  | cons x rest ih =>
    intro b tn i h
    exact ih _ tn i (bGet_bAddId_mono b key (jsToString x) tn i h)

theorem foldl_bAddId_isSome (key : String) (ids : List JValue) :
    ∀ (b : BelongsTo) (tn : String), (b.lookup tn).isSome = true →
    ((ids.foldl (fun b x => bAddId b key (jsToString x)) b).lookup tn).isSome
      = true := by
  induction ids with
  | nil => intro b tn h; exact h
  | cons x rest ih =>
    intro b tn h
    exact ih _ tn (bAddId_isSome b key (jsToString x) tn h)

theorem foldl_bAddId_reg (key : String) (ids : List JValue) :
    ∀ (b : BelongsTo) (iv : JValue), iv ∈ ids →
    (b.lookup key).isSome = true →
    bGet (ids.foldl (fun b x => bAddId b key (jsToString x)) b) key
      (jsToString iv) = true := by
  induction ids with
  | nil => intro b iv hmem; exact absurd hmem (by simp)
  | cons x rest ih =>
    intro b iv hmem hs
    rcases List.mem_cons.mp hmem with rfl | hmem'
    · exact foldl_bAddId_mono key rest _ key (jsToString iv)
        (bGet_bAddId_self b key (jsToString iv) hs)
    · exact ih _ iv hmem' (bAddId_isSome b key (jsToString x) key hs)

theorem processRefField_mono (b : BelongsTo) (tnv idv : JValue) (tn i : String)
    (h : bGet b tn i = true) : bGet (processRefField b tnv idv) tn i = true := by
  cases idv
  case arr ids =>
    simp only [processRefField]
    exact foldl_bAddId_mono _ ids _ tn i
      (bGet_bEnsure_mono b (jsToString tnv) tn i h)
  all_goals
    simp only [processRefField]
    exact bGet_bAddId_mono _ (jsToString tnv) _ tn i
      (bGet_bEnsure_mono b (jsToString tnv) tn i h)

theorem processRefField_reg (b : BelongsTo) (tnv idv : JValue) (i : String)
    (hi : (∃ ids, idv = JValue.arr ids ∧ ∃ iv ∈ ids, i = jsToString iv) ∨
          ((∀ ids, idv ≠ JValue.arr ids) ∧ i = jsToString idv)) :
    bGet (processRefField b tnv idv) (jsToString tnv) i = true := by
  rcases hi with ⟨ids, rfl, iv, hmem, rfl⟩ | ⟨hne, rfl⟩
  · simp only [processRefField]
    exact foldl_bAddId_reg _ ids _ iv hmem (bEnsure_isSome b (jsToString tnv))
  · cases idv
    case arr ids => exact absurd rfl (hne ids)
    all_goals
      simp only [processRefField]
      exact bGet_bAddId_self _ (jsToString tnv) _
        (bEnsure_isSome b (jsToString tnv))

theorem foldl_pRF_mono (idv : JValue) (tns : List JValue) :
    ∀ (b : BelongsTo) (tn i : String), bGet b tn i = true →
    bGet (tns.foldl (fun b tv => processRefField b tv idv) b) tn i = true := by
  induction tns with
  | nil => intro b tn i h; exact h
  | cons x rest ih =>
    intro b tn i h
    exact ih _ tn i (processRefField_mono b x idv tn i h)

theorem foldl_pRF_reg (idv : JValue) (tns : List JValue) (tv : JValue)
    (hmem : tv ∈ tns) (i : String)
    (hi : (∃ ids, idv = JValue.arr ids ∧ ∃ iv ∈ ids, i = jsToString iv) ∨
          ((∀ ids, idv ≠ JValue.arr ids) ∧ i = jsToString idv)) :
    ∀ b : BelongsTo,
    bGet (tns.foldl (fun b tv => processRefField b tv idv) b)
      (jsToString tv) i = true := by
  induction tns with
  | nil => exact absurd hmem (by simp)
  | cons x rest ih =>
    intro b
    rcases List.mem_cons.mp hmem with rfl | hmem'
    · exact foldl_pRF_mono idv rest _ (jsToString tv) i
        (processRefField_reg b tv idv i hi)
    · exact ih hmem' _

/-- The type-name/id pairs a detected reference object registers: when
`typeName` is a list, one registration per element (all sharing the same
id); when `id` is a list, one id per element; values are string-coerced
as JavaScript property keys. -/
def RefReg (rprops : List (String × JValue)) (tn i : String) : Prop :=
  ((∃ tns, jsGet rprops "typeName" = JValue.arr tns ∧
      ∃ tv ∈ tns, tn = jsToString tv) ∨
   ((∀ tns, jsGet rprops "typeName" ≠ JValue.arr tns) ∧
      tn = jsToString (jsGet rprops "typeName"))) ∧
  ((∃ ids, jsGet rprops "id" = JValue.arr ids ∧
      ∃ iv ∈ ids, i = jsToString iv) ∨
   ((∀ ids, jsGet rprops "id" ≠ JValue.arr ids) ∧
      i = jsToString (jsGet rprops "id")))

theorem collectRef_mono (b : BelongsTo) (props : List (String × JValue))
    (tn i : String) (h : bGet b tn i = true) :
    bGet (collectRef b props) tn i = true := by
  cases htv : jsGet props "typeName"
  case arr tns =>
    simp only [collectRef, htv]
    exact foldl_pRF_mono _ tns b tn i h
  all_goals
    simp only [collectRef, htv]
    exact processRefField_mono b _ _ tn i h

theorem collectRef_reg (b : BelongsTo) (props : List (String × JValue))
    (tn i : String) (hRR : RefReg props tn i) :
    bGet (collectRef b props) tn i = true := by
  rcases hRR with ⟨htn, hid⟩
  rcases htn with ⟨tns, htv, tv, hmem, rfl⟩ | ⟨hne, rfl⟩
  · simp only [collectRef, htv]
    exact foldl_pRF_reg _ tns tv hmem i hid b
  · cases htv : jsGet props "typeName"
    case arr tns => exact absurd htv (hne tns)
    all_goals
      simp only [collectRef, htv]
      exact processRefField_reg b _ _ i hid

/-- Belongs-to monotonicity motive for `processField`. -/
def bM1 (ir : String → Bool) (res : String → String) (b : BelongsTo)
    (v : JValue) : Prop :=
  ∀ tn i, bGet b tn i = true → bGet (processField ir res b v).1 tn i = true

/-- Belongs-to monotonicity motive for `processFieldsProps`. -/
def bM2 (ir : String → Bool) (res : String → String) (b : BelongsTo)
    (acc props : List (String × JValue)) : Prop :=
  ∀ tn i, bGet b tn i = true →
    bGet (processFieldsProps ir res b acc props).1 tn i = true

/-- Belongs-to monotonicity motive for `processFieldList`. -/
def bM3 (ir : String → Bool) (res : String → String) (b : BelongsTo)
    (xs : List JValue) : Prop :=
  ∀ tn i, bGet b tn i = true →
    bGet (processFieldList ir res b xs).1 tn i = true

/-- Belongs-to monotonicity motive for `processFieldsArr`. -/
def bM4 (ir : String → Bool) (res : String → String) (b : BelongsTo)
    (j : Nat) (acc : List (String × JValue)) (xs : List JValue) : Prop :=
  ∀ tn i, bGet b tn i = true →
    bGet (processFieldsArr ir res b j acc xs).1 tn i = true

/-- The field-normalization pass only ever adds belongs-to entries. -/
theorem bMono_all (ir : String → Bool) (res : String → String) :
    (∀ b v, bM1 ir res b v) ∧ (∀ b acc props, bM2 ir res b acc props) ∧
    (∀ b xs, bM3 ir res b xs) ∧ (∀ b j acc xs, bM4 ir res b j acc xs) := by
  have p1 : ∀ b, bM1 ir res b .undefined := by
    intro b tn i h
    simpa [processField] using h
  have p2 : ∀ b, bM1 ir res b .null := by
    intro b tn i h
    simpa [processField] using h
  have p3 : ∀ b s, bM1 ir res b (.str s) := by
    intro b s tn i h
    simpa [processField] using h
  have p4 : ∀ b v, bM1 ir res b (.bool v) := by
    intro b v tn i h
    simpa [processField] using h
  have p5 : ∀ b n, bM1 ir res b (.num n) := by
    intro b n tn i h
    simpa [processField] using h
  have p6 : ∀ (b : BelongsTo) (xs : List JValue) (b' : BelongsTo)
      (out : List (String × JValue)),
      processFieldsArr ir res b 0 [] xs = (b', out) → bM4 ir res b 0 [] xs →
      bM1 ir res b (JValue.arr xs) := by
    intro b xs b' out heq ih tn i h
    have h2 := ih tn i h
    rw [heq] at h2
    simp only [processField, heq]
    exact h2
  have p7 : ∀ (b : BelongsTo) (props : List (String × JValue)),
      (let b1 := if _h : isRefField (JValue.obj props) = true
        then collectRef b props else b
      ∀ (b' : BelongsTo) (out : List (String × JValue)),
        processFieldsProps ir res b1 [] props = (b', out) →
        bM2 ir res b1 [] props → bM1 ir res b (JValue.obj props)) := by
    intro b props b1 b' out heq ih tn i h
    have hb1d : b1 = if _h : isRefField (JValue.obj props) = true
        then collectRef b props else b := rfl
    have hb1 : bGet b1 tn i = true := by
      rw [hb1d]
      split
      · exact collectRef_mono b props tn i h
      · exact h
    have h2 := ih tn i hb1
    rw [heq] at h2
    rw [hb1d, dite_eq_ite] at heq
    simp only [processField, heq]
    exact h2
  have p8 : ∀ (b : BelongsTo) (acc : List (String × JValue)),
      bM2 ir res b acc [] := by
    intro b acc tn i h
    simpa [processFieldsProps] using h
  have p9 : ∀ (b : BelongsTo) (acc : List (String × JValue)) (k : String)
      (xs : List JValue) (rest : List (String × JValue)),
      startsDunder k = true → bM2 ir res b (jsUpsert acc k (JValue.arr xs)) rest →
      bM2 ir res b acc ((k, JValue.arr xs) :: rest) := by
    intro b acc k xs rest hk ih tn i h
    simp only [processFieldsProps]
    rw [if_pos hk]
    exact ih tn i h
  have p10 : ∀ (b : BelongsTo) (acc : List (String × JValue)) (k : String)
      (xs : List JValue) (rest : List (String × JValue)),
      ¬startsDunder k = true →
      ∀ (b' : BelongsTo) (xs' : List JValue),
        processFieldList ir res b xs = (b', xs') → bM3 ir res b xs →
        bM2 ir res b' (jsUpsert acc (createKey k) (JValue.arr xs')) rest →
        bM2 ir res b acc ((k, JValue.arr xs) :: rest) := by
    intro b acc k xs rest hk b' xs' heq ih3 ih2 tn i h
    have h3 := ih3 tn i h
    rw [heq] at h3
    simp only [processFieldsProps]
    rw [if_neg hk]
    simp only [heq]
    exact ih2 tn i h3
  have p11 : ∀ (b : BelongsTo) (acc : List (String × JValue)) (k : String)
      (v : JValue) (rest : List (String × JValue)),
      (∀ (xs : List JValue), v = JValue.arr xs → False) →
      startsDunder k = true → bM2 ir res b (jsUpsert acc k v) rest →
      bM2 ir res b acc ((k, v) :: rest) := by
    intro b acc k v rest hnarr hk ih tn i h
    cases v
    case arr xs => exact absurd rfl (hnarr xs)
    all_goals
      simp only [processFieldsProps]
      rw [if_pos hk]
      exact ih tn i h
  have p12 : ∀ (b : BelongsTo) (acc : List (String × JValue)) (k : String)
      (v : JValue) (rest : List (String × JValue)),
      (∀ (xs : List JValue), v = JValue.arr xs → False) →
      ¬startsDunder k = true →
      ∀ (b' : BelongsTo) (v' : JValue),
        processField ir res b v = (b', v') → bM1 ir res b v →
        bM2 ir res b' (jsUpsert acc (createKey k) v') rest →
        bM2 ir res b acc ((k, v) :: rest) := by
    intro b acc k v rest hnarr hk b' v' heq ih1 ih2 tn i h
    have h1 := ih1 tn i h
    rw [heq] at h1
    cases v
    case arr xs => exact absurd rfl (hnarr xs)
    all_goals
      simp only [processFieldsProps]
      rw [if_neg hk]
      simp only [heq]
      exact ih2 tn i h1
  have p13 : ∀ (b : BelongsTo), bM3 ir res b [] := by
    intro b tn i h
    simpa [processFieldList] using h
  have p14 : ∀ (b : BelongsTo) (x : JValue) (rest : List JValue)
      (b' : BelongsTo) (v' : JValue),
      processField ir res b x = (b', v') →
      ∀ (b'' : BelongsTo) (xs' : List JValue),
        processFieldList ir res b' rest = (b'', xs') →
        bM1 ir res b x → bM3 ir res b' rest → bM3 ir res b (x :: rest) := by
    intro b x rest b' v' heq1 b2 xs2 heq2 ih1 ih3 tn i h
    have h1 := ih1 tn i h
    rw [heq1] at h1
    have h3 := ih3 tn i h1
    rw [heq2] at h3
    simp only [processFieldList, heq1, heq2]
    exact h3
  have p15 : ∀ (b : BelongsTo) (j : Nat) (acc : List (String × JValue)),
      bM4 ir res b j acc [] := by
    intro b j acc tn i h
    simpa [processFieldsArr] using h
  have p16 : ∀ (b : BelongsTo) (j : Nat) (acc : List (String × JValue))
      (xs rest : List JValue) (b' : BelongsTo) (xs' : List JValue),
      processFieldList ir res b xs = (b', xs') → bM3 ir res b xs →
      bM4 ir res b' (j + 1) (jsUpsert acc (createKey (toString j)) (JValue.arr xs'))
        rest →
      bM4 ir res b j acc (JValue.arr xs :: rest) := by
    intro b j acc xs rest b' xs' heq ih3 ih4 tn i h
    have h3 := ih3 tn i h
    rw [heq] at h3
    simp only [processFieldsArr, heq]
    exact ih4 tn i h3
  have p17 : ∀ (b : BelongsTo) (j : Nat) (acc : List (String × JValue))
      (x : JValue) (rest : List JValue),
      (∀ (xs : List JValue), x = JValue.arr xs → False) →
      ∀ (b' : BelongsTo) (v' : JValue),
        processField ir res b x = (b', v') → bM1 ir res b x →
        bM4 ir res b' (j + 1) (jsUpsert acc (createKey (toString j)) v') rest →
        bM4 ir res b j acc (x :: rest) := by
    intro b j acc x rest hnarr b' v' heq ih1 ih4 tn i h
    have h1 := ih1 tn i h
    rw [heq] at h1
    cases x
    case arr xs => exact absurd rfl (hnarr xs)
    all_goals
      simp only [processFieldsArr, heq]
      exact ih4 tn i h1
  refine ⟨?_, ?_, ?_, ?_⟩
  · exact processField.induct ir res (bM1 ir res) (bM2 ir res) (bM3 ir res)
      (bM4 ir res) p1 p2 p3 p4 p5 p6 p7 p8 p9 p10 p11 p12 p13 p14 p15 p16 p17
  · exact fun b acc props => processFieldsProps.induct ir res (bM1 ir res)
      (bM2 ir res) (bM3 ir res) (bM4 ir res) p1 p2 p3 p4 p5 p6 p7 p8 p9 p10
      p11 p12 p13 p14 p15 p16 p17 b acc props
  · exact fun b xs => processFieldList.induct ir res (bM1 ir res) (bM2 ir res)
      (bM3 ir res) (bM4 ir res) p1 p2 p3 p4 p5 p6 p7 p8 p9 p10 p11 p12 p13
      p14 p15 p16 p17 b xs
  · exact fun b j acc xs => processFieldsArr.induct ir res (bM1 ir res)
      (bM2 ir res) (bM3 ir res) (bM4 ir res) p1 p2 p3 p4 p5 p6 p7 p8 p9 p10
      p11 p12 p13 p14 p15 p16 p17 b j acc xs

theorem walk_list (ir : String → Bool) (res : String → String) (tn i : String)
    (w : JValue)
    (hw1 : ∀ b, bGet (processField ir res b w).1 tn i = true) :
    ∀ (xs : List JValue), w ∈ xs → ∀ b : BelongsTo,
      bGet (processFieldList ir res b xs).1 tn i = true := by
  intro xs
  induction xs with
  | nil => intro hmem; exact absurd hmem (by simp)
  | cons x rest ih =>
    intro hmem b
    rcases hq1 : processField ir res b x with ⟨b2, x2⟩
    rcases hq2 : processFieldList ir res b2 rest with ⟨b3, r3⟩
    simp only [processFieldList, hq1, hq2]
    rcases List.mem_cons.mp hmem with heq | hmem'
    · have h1 := hw1 b
      rw [heq, hq1] at h1
      have h3 := (bMono_all ir res).2.2.1 b2 rest tn i h1
      rw [hq2] at h3
      exact h3
    · have h3 := ih hmem' b2
      rw [hq2] at h3
      exact h3

theorem walk_arr (ir : String → Bool) (res : String → String) (tn i : String)
    (w : JValue)
    (hw1 : ∀ b, bGet (processField ir res b w).1 tn i = true)
    (hw2 : ∀ ys, w = JValue.arr ys → ∀ b : BelongsTo,
      bGet (processFieldList ir res b ys).1 tn i = true) :
    ∀ (xs : List JValue), w ∈ xs →
    ∀ (b : BelongsTo) (j : Nat) (acc : List (String × JValue)),
      bGet (processFieldsArr ir res b j acc xs).1 tn i = true := by
  intro xs
  induction xs with
  | nil => intro hmem; exact absurd hmem (by simp)
  | cons x rest ih =>
    intro hmem b j acc
    rcases List.mem_cons.mp hmem with heq | hmem'
    · rw [← heq]
      rcases hq1 : processField ir res b w with ⟨b2, w2⟩
      have h1 := hw1 b
      rw [hq1] at h1
      cases w
      case arr ys =>
        rcases hq2 : processFieldList ir res b ys with ⟨b3, ys2⟩
        simp only [processFieldsArr, hq2]
        have h2 := hw2 ys rfl b
        rw [hq2] at h2
        exact (bMono_all ir res).2.2.2 b3 (j + 1) _ rest tn i h2
      all_goals
        simp only [processFieldsArr, hq1]
        exact (bMono_all ir res).2.2.2 b2 (j + 1) _ rest tn i h1
    · rcases hq1 : processField ir res b x with ⟨b2, x2⟩
      cases x
      case arr ys =>
        rcases hq2 : processFieldList ir res b ys with ⟨b3, ys2⟩
        simp only [processFieldsArr, hq2]
        exact ih hmem' b3 (j + 1) _
      all_goals
        simp only [processFieldsArr, hq1]
        exact ih hmem' b2 (j + 1) _

theorem walk_props (ir : String → Bool) (res : String → String) (tn i : String)
    (k : String) (w : JValue) (hnd : startsDunder k = false)
    (hw1 : ∀ b, bGet (processField ir res b w).1 tn i = true)
    (hw2 : ∀ ys, w = JValue.arr ys → ∀ b : BelongsTo,
      bGet (processFieldList ir res b ys).1 tn i = true) :
    ∀ (props : List (String × JValue)), (k, w) ∈ props →
    ∀ (b : BelongsTo) (acc : List (String × JValue)),
      bGet (processFieldsProps ir res b acc props).1 tn i = true := by
  intro props
  induction props with
  | nil => intro hmem; exact absurd hmem (by simp)
  | cons p rest ih =>
    intro hmem b acc
    rcases p with ⟨k₁, w₁⟩
    rcases List.mem_cons.mp hmem with heq | hmem'
    · injection heq with hk1 hw1e
      subst hk1
      subst hw1e
      have hndne : ¬startsDunder k = true := by simp [hnd]
      rcases hq1 : processField ir res b w with ⟨b2, w2⟩
      have h1 := hw1 b
      rw [hq1] at h1
      cases w
      case arr ys =>
        rcases hq2 : processFieldList ir res b ys with ⟨b3, ys2⟩
        simp only [processFieldsProps, hq2]
        rw [if_neg hndne]
        have h2 := hw2 ys rfl b
        rw [hq2] at h2
        exact (bMono_all ir res).2.1 b3 _ rest tn i h2
      all_goals
        simp only [processFieldsProps]
        rw [if_neg hndne]
        simp only [hq1]
        exact (bMono_all ir res).2.1 b2 _ rest tn i h1
    · rcases hq1 : processField ir res b w₁ with ⟨b2, w12⟩
      cases w₁
      case arr ys =>
        rcases hq2 : processFieldList ir res b ys with ⟨b3, ys2⟩
        simp only [processFieldsProps, hq2]
        split
        · exact ih hmem' b _
        · exact ih hmem' b3 _
      all_goals
        simp only [processFieldsProps]
        split
        · exact ih hmem' b _
        · simp only [hq1]
          exact ih hmem' b2 _

/-- Reachability of a nested value: `r` can be found inside `v` by
descending through object properties whose key does not start with `__`
and through array elements. -/
inductive Reaches : JValue → JValue → Prop
  | refl (v : JValue) : Reaches v v
  | objStep {props : List (String × JValue)} {k : String} {w r : JValue} :
      (k, w) ∈ props → startsDunder k = false → Reaches w r →
      Reaches (JValue.obj props) r
  | arrStep {xs : List JValue} {w r : JValue} :
      w ∈ xs → Reaches w r → Reaches (JValue.arr xs) r

theorem reaches_reg (ir : String → Bool) (res : String → String)
    (tn i : String) :
    ∀ (v r : JValue), Reaches v r →
    ∀ (rprops : List (String × JValue)), r = JValue.obj rprops →
      isRefField r = true → RefReg rprops tn i →
      ((∀ b, bGet (processField ir res b v).1 tn i = true) ∧
       (∀ xs, v = JValue.arr xs → ∀ b : BelongsTo,
          bGet (processFieldList ir res b xs).1 tn i = true)) := by
  intro v r hreach
  induction hreach with
  | refl v =>
    intro rprops hre href hRR
    subst hre
    constructor
    · intro b
      rcases hq : processFieldsProps ir res (collectRef b rprops) [] rprops
        with ⟨b2, out2⟩
      have h1 : bGet (collectRef b rprops) tn i = true :=
        collectRef_reg b rprops tn i hRR
      have h2 := (bMono_all ir res).2.1 (collectRef b rprops) [] rprops tn i h1
      rw [hq] at h2
      simp only [processField]
      rw [if_pos href]
      simp only [hq]
      exact h2
    · intro xs hxe
      exact absurd hxe (by simp)
  | objStep hmem hnd hsub ih =>
    rename_i props k w r
    intro rprops hre href hRR
    have ihc := ih rprops hre href hRR
    constructor
    · intro b
      have h3 := walk_props ir res tn i k w hnd ihc.1 ihc.2 props hmem
        (if isRefField (JValue.obj props) = true then collectRef b props else b)
        []
      rcases hq : processFieldsProps ir res
          (if isRefField (JValue.obj props) = true then collectRef b props
            else b) [] props with ⟨b2, out2⟩
      rw [hq] at h3
      simp only [processField, hq]
      exact h3
    · intro xs hxe
      exact absurd hxe (by simp)
  | arrStep hmem hsub ih =>
    rename_i xs w r
    intro rprops hre href hRR
    have ihc := ih rprops hre href hRR
    constructor
    · intro b
      have h3 := walk_arr ir res tn i w ihc.1 ihc.2 xs hmem b 0 []
      rcases hq : processFieldsArr ir res b 0 [] xs with ⟨b2, out2⟩
      rw [hq] at h3
      simp only [processField, hq]
      exact h3
    · intro xs' hxe
      injection hxe with hxs
      subst hxs
      intro b
      exact walk_list ir res tn i w ihc.1 xs hmem b

theorem foldl_legacy_mono (flds : List (String × JValue)) :
    ∀ (refs : List (String × JValue)) (b : BelongsTo) (tn i : String),
    bGet b tn i = true →
    bGet (refs.foldl (fun b p => processRefField b p.2 (jsGet flds p.1)) b)
      tn i = true := by
  intro refs
  induction refs with
  | nil => intro b tn i h; exact h
  | cons p rest ih =>
    intro b tn i h
    exact ih _ tn i (processRefField_mono b p.2 (jsGet flds p.1) tn i h)

/-- C5 (amended): reference detection and registration.  A value that is
an object with exactly the two keys `typeName` and `id`, nested at any
depth below a top-level field — through object properties whose key does
not start with `__` and through array elements — is registered in the
belongs-to map: once per type name when `typeName` is a list (all
sharing the same `id`), and once per id when `id` is a list, with both
string-coerced.  References hidden below a `__`-prefixed key are *not*
registered (unlike the original claim's "at any depth"). -/
theorem processNodeFields_registers_ref (ctx : Ctx) (cfg : CollCfg)
    (props : List (String × JValue)) (origin : JValue) (k : String)
    (w r : JValue) (rprops : List (String × JValue)) (tn i : String)
    (hmem : (k, w) ∈ props) (hnd : startsDunder k = false)
    (hreach : Reaches w r) (hre : r = JValue.obj rprops)
    (href : isRefField r = true) (hRR : RefReg rprops tn i) :
    bGet (processNodeFields ctx cfg (JValue.obj props) origin).2 tn i
      = true := by
  simp only [processNodeFields, processFieldsTop]
  refine foldl_legacy_mono _ _ _ tn i ?_
  refine walk_props _ _ tn i k w hnd ?_ ?_ props hmem _ _
  · exact (reaches_reg _ _ tn i w r hreach rprops hre href hRR).1
  · exact (reaches_reg _ _ tn i w r hreach rprops hre href hRR).2

theorem processNodeFields_registers_ref_witness :
    bGet (processNodeFields ctxW cfgPost
      (.obj [("author",
        .obj [("items", .arr [.obj [("typeName", .str "Author"),
          ("id", .str "42")]])])])
      (.str "")).2 "Author" "42" = true :=
  processNodeFields_registers_ref ctxW cfgPost
    [("author", .obj [("items", .arr [.obj [("typeName", .str "Author"),
      ("id", .str "42")]])])]
    (.str "") "author"
    (.obj [("items", .arr [.obj [("typeName", .str "Author"),
      ("id", .str "42")]])])
    (.obj [("typeName", .str "Author"), ("id", .str "42")])
    [("typeName", .str "Author"), ("id", .str "42")]
    "Author" "42"
    (by simp) rfl
    (@Reaches.objStep
      [("items", JValue.arr [JValue.obj [("typeName", JValue.str "Author"),
        ("id", JValue.str "42")]])]
      "items"
      (JValue.arr [JValue.obj [("typeName", JValue.str "Author"),
        ("id", JValue.str "42")]])
      (JValue.obj [("typeName", JValue.str "Author"), ("id", JValue.str "42")])
      (by simp) rfl
      (@Reaches.arrStep
        [JValue.obj [("typeName", JValue.str "Author"), ("id", JValue.str "42")]]
        (JValue.obj [("typeName", JValue.str "Author"), ("id", JValue.str "42")])
        (JValue.obj [("typeName", JValue.str "Author"), ("id", JValue.str "42")])
        (by simp) (Reaches.refl _)))
    rfl rfl
    ⟨Or.inr ⟨by simp [jsGet, List.lookup],
      by simp [jsGet, List.lookup, jsToString]⟩,
     Or.inr ⟨by simp [jsGet, List.lookup],
      by simp [jsGet, List.lookup, jsToString]⟩⟩

/-- C5 (counterexample): a reference object nested below a `__`-prefixed
key is invisible to normalization — the value is passed through
unprocessed and nothing at all is registered in the belongs-to map, so
"nested at any depth" is false. -/
theorem ref_under_dunder_counterexample :
    isRefField (.obj [("typeName", .str "Post"), ("id", .str "1")]) = true ∧
    (processNodeFields ctxW cfgPost
      (.obj [("__m", .obj [("typeName", .str "Post"), ("id", .str "1")])])
      (.str "")).2 = [] := by
  constructor
  · rfl
  · simp [processNodeFields, processFieldsTop, processFieldsProps,
      startsDunder, jsUpsert, ctxW, cfgPost]

/-- Number of nodes with path `p` across every collection of the store. -/
def pathNodeCount (s : Store) (p : String) : Nat :=
  (s.colls.map fun c => (c.nodes.map Node.path).count p).sum

theorem registerMime_nodes (c : Coll) (mt : JValue) :
    (registerMime c mt).nodes = c.nodes := by
  unfold registerMime
  split <;> rfl

theorem registerMime_cfg (c : Coll) (mt : JValue) :
    (registerMime c mt).cfg = c.cfg := by
  unfold registerMime
  split <;> rfl

theorem replaceColl_id (colls : List Coll) (tn : String) (c' : Coll)
    (h : tn ∉ colls.map fun c => c.cfg.typeName) :
    replaceColl colls tn c' = colls := by
  induction colls with
  | nil => rfl
  | cons c rest ih =>
    simp only [List.map_cons, List.mem_cons] at h
    push_neg at h
    simp only [replaceColl, List.map_cons]
    rw [if_neg (by simp [beq_iff_eq]; exact fun he => h.1 he.symm)]
    have hr := ih h.2
    simp only [replaceColl] at hr
    rw [hr]

theorem replaceColl_typeNames (colls : List Coll) (tn : String) (c' : Coll)
    (h : c'.cfg.typeName = tn) :
    (replaceColl colls tn c').map (fun c => c.cfg.typeName) =
      colls.map fun c => c.cfg.typeName := by
  induction colls with
  | nil => rfl
  | cons c rest ih =>
    simp only [replaceColl, List.map_cons] at ih ⊢
    split
    · rename_i hc
      rw [ih, h, beq_iff_eq.mp hc]
    · rw [ih]

theorem replaceColl_nodes (colls : List Coll) (tn : String) (c c' : Coll)
    (hnd : (colls.map fun c => c.cfg.typeName).Nodup)
    (hf : colls.find? (fun c => c.cfg.typeName == tn) = some c)
    (hn : c'.nodes = c.nodes) :
    (replaceColl colls tn c').map (fun c => c.nodes) =
      colls.map fun c => c.nodes := by
  induction colls with
  | nil => simp [List.find?] at hf
  | cons c₀ rest ih =>
    simp only [List.map_cons, List.nodup_cons] at hnd
    rw [List.find?_cons] at hf
    simp only [replaceColl, List.map_cons]
    split
    · rename_i hc
      rw [hc] at hf
      simp only [Option.some.injEq] at hf
      have hrest : replaceColl rest tn c' = rest := by
        apply replaceColl_id
        rw [← beq_iff_eq.mp hc]
        exact hnd.1
      simp only [replaceColl] at hrest
      rw [hrest, hn, hf]
    · rename_i hc
      rw [Bool.not_eq_true] at hc
      rw [hc] at hf
      have := ih hnd.2 hf
      simp only [replaceColl] at this
      rw [this]

theorem replaceColl_count (g : Coll → Nat) (colls : List Coll) (tn : String)
    (c c' : Coll)
    (hnd : (colls.map fun c => c.cfg.typeName).Nodup)
    (hf : colls.find? (fun c => c.cfg.typeName == tn) = some c) :
    ((replaceColl colls tn c').map g).sum + g c =
      (colls.map g).sum + g c' := by
  induction colls with
  | nil => simp [List.find?] at hf
  | cons c₀ rest ih =>
    simp only [List.map_cons, List.nodup_cons] at hnd
    rw [List.find?_cons] at hf
    simp only [replaceColl, List.map_cons]
    split
    · rename_i hc
      rw [hc] at hf
      simp only [Option.some.injEq] at hf
      have hrest : replaceColl rest tn c' = rest := by
        apply replaceColl_id
        rw [← beq_iff_eq.mp hc]
        exact hnd.1
      simp only [replaceColl] at hrest
      rw [hrest, hf]
      simp only [List.map_cons, List.sum_cons]
      omega
    · rename_i hc
      rw [Bool.not_eq_true] at hc
      rw [hc] at hf
      have := ih hnd.2 hf
      simp only [replaceColl] at this
      simp only [List.map_cons, List.sum_cons]
      omega

theorem pathNodeCount_congr (s s' : Store) (p : String)
    (h : (s.colls.map fun c => c.nodes) = s'.colls.map fun c => c.nodes) :
    pathNodeCount s p = pathNodeCount s' p := by
  unfold pathNodeCount
  have h2 := congrArg (List.map fun ns => (ns.map Node.path).count p) h
  rw [List.map_map, List.map_map] at h2
  exact congrArg List.sum h2

/-- C1: path uniqueness with atomic rejection.  When an `addNode` call
has inserted a node with path `p` into a store that had no node at `p`,
a second `addNode` (of any content type) whose created node resolves to
the same path is rejected by the cross-type index: the call returns no
node, the index and every collection's node list are unchanged (only the
mime-type bookkeeping may change), and exactly one node with path `p`
survives across the whole store. -/
theorem addNode_duplicate_path (ctx : Ctx) (s : Store) (tn1 tn2 : String)
    (opts1 opts2 : NodeOptions) (s1 : Store) (n1 : Node) (p : String)
    (coll2 : Coll) (cres2 : CreateRes)
    (h1 : addNode ctx s tn1 opts1 = .ok (s1, some n1))
    (hp1 : n1.path = p)
    (hcount : pathNodeCount s p = 0)
    (hnd : (s.colls.map fun c => c.cfg.typeName).Nodup)
    (hcf2 : s1.colls.find? (fun c => c.cfg.typeName == tn2) = some coll2)
    (hcn2 : createNode ctx coll2.cfg opts2 = .ok cres2)
    (hp2 : cres2.node.path = p) :
    ∃ s2 : Store, addNode ctx s1 tn2 opts2 = .ok (s2, none) ∧
      s2.index = s1.index ∧
      (s2.colls.map fun c => c.nodes) = (s1.colls.map fun c => c.nodes) ∧
      pathNodeCount s2 p = 1 := by
  simp only [addNode] at h1
  split at h1
  · exact absurd h1 (by simp)
  rename_i coll1 hf1
  split at h1
  · exact absurd h1 (by simp)
  rename_i cres1 hc1
  split at h1
  · simp at h1
  rename_i index1 hi1
  split at h1
  · exact absurd h1 (by simp)
  rename_i coll1b hci1
  simp only [Except.ok.injEq, Prod.mk.injEq, Option.some.injEq] at h1
  obtain ⟨hs1, hn1⟩ := h1
  unfold indexInsert at hi1
  split at hi1
  · exact absurd hi1 (by simp)
  rename_i hany1
  simp only [Except.ok.injEq] at hi1
  unfold collInsert at hci1
  split at hci1
  · exact absurd hci1 (by simp)
  rename_i hanyc1
  simp only [Except.ok.injEq] at hci1
  have hcfg1 : coll1.cfg.typeName = tn1 := by
    have := List.find?_some hf1
    exact beq_iff_eq.mp this
  have hcfg1b : coll1b.cfg.typeName = tn1 := by
    rw [← hci1]
    simp only [registerMime_cfg]
    exact hcfg1
  have hnd1 : (s1.colls.map fun c => c.cfg.typeName).Nodup := by
    rw [← hs1]
    simp only
    rw [replaceColl_typeNames s.colls tn1 coll1b hcfg1b]
    exact hnd
  have hdup : (s1.index.any fun e' => e'.path == cres2.node.path) = true := by
    rw [← hs1]
    simp only
    rw [← hi1]
    simp [List.any_append, hn1, hp1, hp2]
  simp only [addNode, hcf2, hcn2, indexInsert]
  rw [if_pos hdup]
  refine ⟨_, rfl, rfl, ?_, ?_⟩
  · exact replaceColl_nodes s1.colls tn2 coll2 _ hnd1 hcf2
      (registerMime_nodes coll2 _)
  · have hpc : pathNodeCount { s1 with colls := replaceColl s1.colls tn2 (registerMime coll2 cres2.node.internal.mimeType) } p = pathNodeCount s1 p := by
      apply pathNodeCount_congr
      exact replaceColl_nodes s1.colls tn2 coll2 _ hnd1 hcf2
        (registerMime_nodes coll2 _)
    rw [hpc]
    have hg1 : ((coll1.nodes.map Node.path).count p) = 0 := by
      have hmem : ((coll1.nodes.map Node.path).count p) ∈
          s.colls.map fun c => (c.nodes.map Node.path).count p :=
        List.mem_map_of_mem _ (List.mem_of_find?_eq_some hf1)
      have hle := List.single_le_sum (by intro x _; omega) _ hmem
      unfold pathNodeCount at hcount
      omega
    have hg1b : ((coll1b.nodes.map Node.path).count p)
        = ((coll1.nodes.map Node.path).count p) + 1 := by
      rw [← hci1]
      simp only [registerMime_nodes]
      simp [List.count_append, hn1, hp1]
    have hrc := replaceColl_count (fun c => (c.nodes.map Node.path).count p)
      s.colls tn1 coll1 coll1b hnd hf1
    have hs1c : pathNodeCount s1 p =
        ((replaceColl s.colls tn1 coll1b).map
          fun c => (c.nodes.map Node.path).count p).sum := by
      rw [← hs1]
      rfl
    unfold pathNodeCount at hcount
    simp only at hrc hg1b
    rw [hs1c]
    omega

/-- First node of the duplicate-path pair. -/
def optsDup1 : NodeOptions := { id := .str "a", path := .str "same" }

/-- Second node mapping to the same path. -/
def optsDup2 : NodeOptions := { id := .str "b", path := .str "same" }

/-- What `createNode ctxW cfgPost optsDup1` evaluates to. -/
def crDup1 : CreateRes where
  node :=
    { id := .str "a"
      _id := .str "a"
      typeName := "Post"
      uid := "Posta"
      internal :=
        { origin := .undefined
          mimeType := .undefined
          content := .undefined
          timestamp := 0 }
      title := .str "a"
      date := .str "2020-01-01T00:00:00.000Z"
      slug := .str "a"
      content := .str ""
      excerpt := .str ""
      withPath := true
      fields := []
      path := "/same" }
  belongsTo := []

/-- What `createNode ctxW cfgPost optsDup2` evaluates to. -/
def crDup2 : CreateRes where
  node :=
    { id := .str "b"
      _id := .str "b"
      typeName := "Post"
      uid := "Postb"
      internal :=
        { origin := .undefined
          mimeType := .undefined
          content := .undefined
          timestamp := 0 }
      title := .str "b"
      date := .str "2020-01-01T00:00:00.000Z"
      slug := .str "b"
      content := .str ""
      excerpt := .str ""
      withPath := true
      fields := []
      path := "/same" }
  belongsTo := []

/-- The store after the first successful `addNode`. -/
def s1dup : Store where
  index :=
    [{ tpe := "node"
       path := "/same"
       typeName := "Post"
       uid := "Posta"
       id := .str "a"
       belongsTo := []
       _id := .str "a" }]
  colls := [⟨cfgPost, [], [crDup1.node]⟩]
  events := [(some crDup1.node, none)]

theorem createNode_dup1_eval : createNode ctxW cfgPost optsDup1 = .ok crDup1 := by
  simp [createNode, createInternals, optsDup1, ctxW, cfgPost, pnf_trivial,
    JValue.jsOr, JValue.truthy, slugChain, slugifyJS, jsGet, JValue.isStr,
    normalizePath, slugifyStr, collapseSep, asciiToLower, isAsciiAlnum,
    isAsciiAlpha, isAsciiUpper, isAsciiLower, isAsciiDigit, jsToString,
    crDup1]

theorem createNode_dup2_eval : createNode ctxW cfgPost optsDup2 = .ok crDup2 := by
  simp [createNode, createInternals, optsDup2, ctxW, cfgPost, pnf_trivial,
    JValue.jsOr, JValue.truthy, slugChain, slugifyJS, jsGet, JValue.isStr,
    normalizePath, slugifyStr, collapseSep, asciiToLower, isAsciiAlnum,
    isAsciiAlpha, isAsciiUpper, isAsciiLower, isAsciiDigit, jsToString,
    crDup2]

theorem addNode_dup1_eval :
    addNode ctxW s0 "Post" optsDup1 = .ok (s1dup, some crDup1.node) := by
  have hf : s0.colls.find? (fun c => c.cfg.typeName == "Post")
      = some ⟨cfgPost, [], []⟩ := by
    simp [s0, cfgPost]
  simp only [addNode, hf, createNode_dup1_eval]
  simp [registerMime, indexInsert, collInsert, replaceColl, crDup1, s1dup,
    s0, cfgPost, JValue.truthy, beqJ, jsToString]

theorem addNode_duplicate_path_witness :
    ∃ s2 : Store, addNode ctxW s1dup "Post" optsDup2 = .ok (s2, none) ∧
      s2.index = s1dup.index ∧
      (s2.colls.map fun c => c.nodes) = (s1dup.colls.map fun c => c.nodes) ∧
      pathNodeCount s2 "/same" = 1 :=
  addNode_duplicate_path ctxW s0 "Post" "Post" optsDup1 optsDup2 s1dup
    crDup1.node "/same" ⟨cfgPost, [], [crDup1.node]⟩ crDup2
    addNode_dup1_eval rfl (by decide) (by simp [s0, cfgPost])
    (by simp [s1dup, cfgPost]) createNode_dup2_eval rfl
